import Mathlib

/-!
Verification of the directory-merge and memoization components of
`common_util.py` (adhuliya/common-utils), via a shallow embedding.

Filesystem model: a node is either a regular file with string content or a
directory with an ordered list of named entries (the order models the OS
listing order seen by `os.listdir` / `os.walk`).  Source and destination
trees are modelled as two separate `FSTree` values rooted at the two
directory paths; paths inside a tree are lists of name components.
-/

namespace CommonUtil

/-- Model of a filesystem subtree: a regular file with its content, or a
directory with an ordered association list of named children. -/
inductive FSTree where
  | file (content : String)
  | dir (entries : List (String × FSTree))

/-- First entry with the given name (directory lookup). -/
def lookupEntry : List (String × FSTree) → String → Option FSTree
  | [], _ => none
  | (m, t) :: rest, n => if m = n then some t else lookupEntry rest n

/-- Replace the first entry with the given name. -/
def updateFirst : List (String × FSTree) → String → FSTree → List (String × FSTree)
  | [], _, _ => []
  | (m, u) :: rest, n, t => if m = n then (n, t) :: rest else (m, u) :: updateFirst rest n t

/-- Node at a path inside a tree (`os.path.exists` is `(find? ..).isSome`). -/
def FSTree.find? (t : FSTree) (p : List String) : Option FSTree :=
  match p with
  | [] => some t
  | n :: p' =>
    match t with
    | .file _ => none
    | .dir es =>
      match lookupEntry es n with
      | some t' => t'.find? p'
      | none => none

/-- Write subtree `s` at path `p`: replaces the node at `p` if it exists,
creates a new final entry if only the parent exists (appended at the end of
the listing, as a newly created name), and is a no-op when an intermediate
component is missing or is a regular file (the underlying `cp` fails, and
`subprocess.run` without `check=True` swallows the non-zero exit status). -/
def FSTree.write (t : FSTree) (p : List String) (s : FSTree) : FSTree :=
  match p with
  | [] => s
  | n :: p' =>
    match t with
    | .file c => .file c
    | .dir es =>
      match lookupEntry es n with
      | some u => .dir (updateFirst es n (u.write p' s))
      | none =>
        match p' with
        | [] => .dir (es ++ [(n, s)])
        | _ :: _ => .dir es

mutual
/-- Copy subtree `s` to the exact target path `q` inside `d`, following the
per-entry behaviour of `cp -r` once the destination directory argument has
been resolved: absent target is created, file over file overwrites, a
file/directory type clash fails (swallowed: no change), and directory over
directory recursively merges entries. -/
def cpAt : FSTree → FSTree → List String → FSTree
  | .file c, d, q =>
    match d.find? q with
    | none => d.write q (.file c)
    | some (.file _) => d.write q (.file c)
    | some (.dir _) => d
  | .dir es, d, q =>
    match d.find? q with
    | none => d.write q (.dir es)
    | some (.file _) => d
    | some (.dir _) => cpAtList es d q

def cpAtList : List (String × FSTree) → FSTree → List String → FSTree
  | [], d, _ => d
  | (n, t) :: rest, d, q => cpAtList rest (cpAt t d (q ++ [n])) q
end

/-- Model of the external `cp -r SRC DEST` invocation: `s` is the subtree at
`SRC`, `b` its basename, and `q` the path of `DEST` inside the destination
tree `d`.  When `DEST` is an existing directory the copy lands at
`DEST/basename(SRC)`; when `DEST` is an existing file a file source
overwrites it and a directory source fails (swallowed); when `DEST` does not
exist, `cp` creates it as a copy of `SRC` provided its parent is an existing
directory (otherwise it fails, swallowed). -/
def cpR (s : FSTree) (b : String) (d : FSTree) (q : List String) : FSTree :=
  match d.find? q with
  | some (.dir _) => cpAt s d (q ++ [b])
  | some (.file _) =>
    match s with
    | .file _ => d.write q s
    | .dir _ => d
  | none => d.write q s

/-- Model of `copyFile(filePath, destDir)`: runs `cp -r filePath destDir`
(the return code of `subprocess.run` is discarded, so a failed copy is a
silent no-op on the tree). -/
def copyFile (s : FSTree) (b : String) (d : FSTree) (q : List String) : FSTree :=
  cpR s b d q

/-- Whether a node is a directory. -/
def FSTree.isDirB : FSTree → Bool
  | .dir _ => true
  | .file _ => false

/-- Model of `os.listdir` on a directory node. -/
def listdir : FSTree → List (String × FSTree)
  | .dir es => es
  | .file _ => []

/-- Model of `isEmptyDir`: `len(os.listdir(directory)) == 0`. -/
def isEmptyDir (t : FSTree) : Bool :=
  (listdir t).isEmpty

mutual
/-- Model of `getAllFilePaths` (built on `os.walk`, top-down): at each
directory it yields the paths of its sub-directories, then of its files,
then recurses into each sub-directory in listing order.  Paths are returned
relative to the walked root, prefixed by `p`. -/
def getAllFilePaths (t : FSTree) (p : List String) : List (List String) :=
  match t with
  | .file _ => []
  | .dir es =>
    (es.filter (fun e => e.2.isDirB)).map (fun e => p ++ [e.1])
      ++ (es.filter (fun e => !e.2.isDirB)).map (fun e => p ++ [e.1])
      ++ walkSub es p

def walkSub (es : List (String × FSTree)) (p : List String) : List (List String) :=
  match es with
  | [] => []
  | (n, t) :: rest =>
    (match t with
     | .dir _ => getAllFilePaths t (p ++ [n])
     | .file _ => []) ++ walkSub rest p
end

/-- Model of `copyDirectoryContents(srcDir, destDir)`: for every top-level
entry of the source directory, run `cp -r` of that entry into the
destination directory (path `[]` of the destination tree). -/
def copyDirectoryContents (src d : FSTree) : FSTree :=
  (listdir src).foldl (fun acc e => cpR e.2 e.1 acc []) d

/-- Chain of fresh directories for the missing suffix of a `makedirs` path. -/
def buildChain : List String → FSTree
  | [] => .dir []
  | n :: p => .dir [(n, buildChain p)]

/-- Model of `os.makedirs(path, exist_ok=existOk)` on the tree rooted at the
filesystem root: creates every missing directory along `p`; `none` models a
raised `OSError` (an intermediate or final component exists as a regular
file, or the directory already exists while `exist_ok` is false). -/
def makedirs (t : FSTree) (p : List String) (existOk : Bool) : Option FSTree :=
  match p with
  | [] =>
    match t with
    | .dir es => if existOk then some (.dir es) else none
    | .file _ => none
  | n :: p' =>
    match t with
    | .file _ => none
    | .dir es =>
      match lookupEntry es n with
      | some u =>
        match makedirs u p' existOk with
        | some u' => some (.dir (updateFirst es n u'))
        | none => none
      | none => some (.dir (es ++ [(n, buildChain p')]))

/-- Model of the `createDir(absDestDirPath)` call at line 157: it re-ensures
the destination root itself (path `[]` of the destination tree), whose
`makedirs` with `exist_ok=True` is a no-op; its return value is discarded by
the caller. -/
def createDirDestRoot (d : FSTree) : FSTree :=
  (makedirs d [] true).getD d

/-- One iteration of the selective-merge loop of
`prepareDestinationDirectory` (lines 150-160) for the enumerated source path
`q`: compute `relDirPath = dirname(relFilePath)`, re-ensure the destination
root when the corresponding directory does not exist, and copy the source
entry when the corresponding path does not exist. -/
def selStep (src : FSTree) (d : FSTree) (q : List String) : FSTree :=
  let relDir := q.dropLast
  let d1 := if (d.find? relDir).isSome then d else createDirDestRoot d
  if (d1.find? q).isSome then d1
  else copyFile ((src.find? q).getD (.dir [])) (q.getLastD "") d1 relDir

/-- Model of `prepareDestinationDirectory(srcDirPath, destDirPath)`.  The
destination argument is `none` when no node exists yet at the destination
path (step 1's `createDir` then creates an empty directory); the source is
assumed to be an existing directory tree, as the code's docstring states. -/
def prepareDestinationDirectory (src : FSTree) (dest : Option FSTree) : FSTree :=
  let d0 := dest.getD (.dir [])
  if isEmptyDir d0 then copyDirectoryContents src d0
  else (getAllFilePaths src []).foldl (selStep src) d0

/-- One iteration of the selective-merge loop where the copy primitive is an
explicit fallible collaborator `prim` (same shape as `copyFile`): the loop
body itself contains no exception handling, so a primitive failure is
returned as-is. -/
def selStepE (prim : FSTree → String → FSTree → List String → Except ε FSTree)
    (src : FSTree) (d : FSTree) (q : List String) : Except ε FSTree :=
  let relDir := q.dropLast
  let d1 := if (d.find? relDir).isSome then d else createDirDestRoot d
  if (d1.find? q).isSome then .ok d1
  else prim ((src.find? q).getD (.dir [])) (q.getLastD "") d1 relDir

/-- Variant of `prepareDestinationDirectory` with the copy primitive as an
explicit fallible collaborator: the function body (lines 124-160) contains
no `try`/`except`, so it sequences the copies and lets any failure of the
primitive escape to its own caller. -/
def prepareDestinationDirectoryE
    (prim : FSTree → String → FSTree → List String → Except ε FSTree)
    (src : FSTree) (dest : Option FSTree) : Except ε FSTree :=
  let d0 := dest.getD (.dir [])
  if isEmptyDir d0 then (listdir src).foldlM (fun acc e => prim e.2 e.1 acc []) d0
  else (getAllFilePaths src []).foldlM (selStepE prim src) d0

/-- The copy primitive that never fails: plain `cp -r` semantics. -/
def okPrim : FSTree → String → FSTree → List String → Except ε FSTree :=
  fun s b d q => .ok (cpR s b d q)

/-- A copy primitive that always fails with error `e`. -/
def failPrim (e : ε) : FSTree → String → FSTree → List String → Except ε FSTree :=
  fun _ _ _ _ => .error e

/-- An absolute or relative OS path: the flag is true for absolute paths. -/
def PathArg : Type := Bool × List String

/-- Model of `getAbolutePath` (sic): a relative path is joined to the
current working directory, an absolute one is returned as-is. -/
def getAbolutePath (cwd : List String) (p : PathArg) : List String :=
  if p.1 then p.2 else cwd ++ p.2

/-- Model of `createDir(dirPath, existOk)`: resolves the path, attempts
`os.makedirs`, and on any raised error returns `none` (after logging, which
is not modelled) instead of propagating; on success it returns the resolved
absolute path.  The pair also carries the resulting filesystem tree (the
input tree, unchanged, when creation failed). -/
def createDir (fs : FSTree) (cwd : List String) (dirPath : PathArg) (existOk : Bool) :
    Option (List String) × FSTree :=
  let absPath := getAbolutePath cwd dirPath
  match makedirs fs absPath existOk with
  | some fs' => (some absPath, fs')
  | none => (none, fs)

/-- Model of a Python runtime value as far as the memoization wrapper is
concerned: integers, strings, tuples, dicts with string keys (iterated in
insertion order, as CPython dicts are), and an unpicklable object such as a
lambda or an open file handle. -/
inductive Value where
  | vint (n : Nat)
  | vstr (s : String)
  | vtup (elems : List Value)
  | vdict (items : List (String × Value))
  | vlambda

/-- Tagged encoding of a string within the pickle-stream model. -/
def encodeStr (s : String) : List Nat :=
  1 :: s.length :: s.data.map Char.toNat

mutual
/-- Model of `pickle.dumps` as an unambiguous tagged byte-list encoding:
deterministic in the value's structure, serializing tuple elements and dict
items in their stored (insertion) order, exactly as pickle streams them;
`none` models a raised `PicklingError`/`TypeError` for unpicklable values.
-/
def pickleDumps : Value → Option (List Nat)
  | .vint n => some [0, n]
  | .vstr s => some (encodeStr s)
  | .vtup l =>
    match pickleList l with
    | some bs => some (2 :: l.length :: bs)
    | none => none
  | .vdict l =>
    match pickleItems l with
    | some bs => some (3 :: l.length :: bs)
    | none => none
  | .vlambda => none

def pickleList : List Value → Option (List Nat)
  | [] => some []
  | v :: rest =>
    match pickleDumps v, pickleList rest with
    | some b, some bs => some (b ++ bs)
    | _, _ => none

def pickleItems : List (String × Value) → Option (List Nat)
  | [] => some []
  | (k, v) :: rest =>
    match pickleDumps v, pickleItems rest with
    | some bv, some bs => some (encodeStr k ++ bv ++ bs)
    | _, _ => none
end

/-- Positional arguments of a call (the `args` tuple). -/
def Args : Type := List Value

/-- Keyword arguments of a call (the `kwargs` dict, in insertion order,
which is the order the keywords appear at the call site). -/
def Kwargs : Type := List (String × Value)

/-- Cache key of the wrapper: `(pickle.dumps(args), pickle.dumps(kwargs))`;
`none` when either pickling raises (`args` is pickled first). -/
def mkKey (args : Args) (kwargs : Kwargs) : Option (List Nat × List Nat) :=
  match pickleDumps (.vtup args), pickleDumps (.vdict kwargs) with
  | some pa, some pk => some (pa, pk)
  | _, _ => none

/-- The memoization cache: a mapping from keys to previously computed
values (keys are inserted at most once, so lookup order is immaterial). -/
def Cache : Type := List ((List Nat × List Nat) × Value)

/-- Find a cached value for a key. -/
def cacheLookup : Cache → (List Nat × List Nat) → Option Value
  | [], _ => none
  | (k, v) :: rest, key => if k = key then some v else cacheLookup rest key

/-- Model of `wrapper(*args, **kwargs)` inside `memoize`: build the pickle
key; on a cache hit return the cached value without invoking `func`;
otherwise invoke `func`, store the result, and return it.  `Except.error c`
models the exception raised by `pickle.dumps` escaping the wrapper before
`func` is invoked: it carries the cache `c`, unchanged, since the only cache
mutation happens after the value is computed.  The `Bool` of a normal
return records whether `func` was invoked by this call. -/
def wrapper (func : Args → Kwargs → Value) (cache : Cache)
    (args : Args) (kwargs : Kwargs) : Except Cache (Value × Cache × Bool) :=
  match mkKey args kwargs with
  | none => .error cache
  | some key =>
    match cacheLookup cache key with
    | some v => .ok (v, cache, false)
    | none =>
      let value := func args kwargs
      .ok (value, (key, value) :: cache, true)

/-- Whether a single call of the wrapper, in the given cache state, invokes
the wrapped callable. -/
def invokedOn (func : Args → Kwargs → Value) (cache : Cache)
    (args : Args) (kwargs : Kwargs) : Bool :=
  match wrapper func cache args kwargs with
  | .ok (_, _, b) => b
  | .error _ => false

/-- Cache state after a call of the wrapper. -/
def cacheAfter (func : Args → Kwargs → Value) (cache : Cache)
    (args : Args) (kwargs : Kwargs) : Cache :=
  match wrapper func cache args kwargs with
  | .ok (_, c, _) => c
  | .error c => c

/-- The selective-merge pass (the `else` branch of
`prepareDestinationDirectory`): fold the loop body over every enumerated
source path. -/
def mergeSel (s d : FSTree) : FSTree :=
  (getAllFilePaths s []).foldl (selStep s) d

/-- Whether the names of an entry list are pairwise distinct (as the names
in one OS directory always are). -/
def nodupKeys (es : List (String × FSTree)) : Bool :=
  decide (es.map Prod.fst).Nodup

mutual
/-- Well-formedness of a tree as an image of a real filesystem: every
directory's entry names are pairwise distinct. -/
def FSTree.wfB : FSTree → Bool
  | .file _ => true
  | .dir es => nodupKeys es && wfList es

def wfList : List (String × FSTree) → Bool
  | [] => true
  | (_, t) :: rest => t.wfB && wfList rest
end

/-- Content of the last regular-file entry of a listing, if any. -/
def lastFileOpt : List (String × FSTree) → Option String
  | [] => none
  | (_, t) :: rest =>
    match lastFileOpt rest with
    | some c => some c
    | none =>
      match t with
      | .file c => some c
      | .dir _ => none

mutual
/-- Denotation of the selective pass: what one run of the loop leaves at a
destination position holding `d` when the source holds `s` at the same
position.  A destination file shadowed by a source directory ends as the
content of the last direct file child of that directory (each such child is
"copied" by `cp -r` onto the file, last write winning) or stays put;
matched directories merge recursively; entries of the source missing from
the destination are appended, directories first, then files, as the walk
(directories before files at each level) appends them. -/
def mergeDen : FSTree → FSTree → FSTree
  | s, .file c =>
    match s with
    | .file _ => .file c
    | .dir ss =>
      match lastFileOpt ss with
      | some c' => .file c'
      | none => .file c
  | s, .dir ds =>
    match s with
    | .file _ => .dir ds
    | .dir ss =>
      .dir (mergeList ss ds
        ++ (ss.filter (fun e => e.2.isDirB)).filter
            (fun e => (lookupEntry ds e.1).isNone)
        ++ (ss.filter (fun e => !e.2.isDirB)).filter
            (fun e => (lookupEntry ds e.1).isNone))

def mergeList (ss : List (String × FSTree)) :
    List (String × FSTree) → List (String × FSTree)
  | [] => []
  | (n, dt) :: rest =>
    (n, match lookupEntry ss n with
        | some st => mergeDen st dt
        | none => dt) :: mergeList ss rest
end

/-! Helper lemmas. -/

theorem lookupEntry_self_updateFirst (es : List (String × FSTree)) (n : String) (u : FSTree)
    (h : lookupEntry es n = some u) : updateFirst es n u = es := by
  induction es with
  | nil => simp [lookupEntry] at h
  | cons hd tl ih =>
    obtain ⟨m, t⟩ := hd
    by_cases hm : m = n
    · subst hm
      simp [lookupEntry] at h
      simp [updateFirst, h]
    · simp [lookupEntry, hm] at h
      simp [updateFirst, hm, ih h]

theorem makedirs_existing_dir (q : List String) (fs : FSTree) (es : List (String × FSTree))
    (h : fs.find? q = some (.dir es)) : makedirs fs q true = some fs := by
  induction q generalizing fs with
  | nil =>
    simp [FSTree.find?] at h
    subst h
    rfl
  | cons n q' ih =>
    match fs with
    | .file c => simp [FSTree.find?] at h
    | .dir es0 =>
      rw [FSTree.find?] at h
      match hl : lookupEntry es0 n with
      | none => rw [hl] at h; exact absurd h (by simp)
      | some u =>
        rw [hl] at h
        dsimp only at h
        rw [makedirs, hl]
        dsimp only
        rw [ih u h]
        dsimp only
        rw [lookupEntry_self_updateFirst es0 n u hl]

theorem lookupEntry_append_none (a b : List (String × FSTree)) (n : String)
    (ha : lookupEntry a n = none) (hb : lookupEntry b n = none) :
    lookupEntry (a ++ b) n = none := by
  induction a with
  | nil => simpa using hb
  | cons hd tl ih =>
    obtain ⟨m, t⟩ := hd
    by_cases hm : m = n
    · simp [lookupEntry, hm] at ha
    · simp [lookupEntry, hm] at ha ⊢
      exact ih ha

theorem bulk_fold (ss : List (String × FSTree)) :
    ∀ acc : List (String × FSTree),
      (∀ e ∈ ss, lookupEntry acc e.1 = none) →
      (ss.map Prod.fst).Nodup →
      ss.foldl (fun d e => cpR e.2 e.1 d []) (.dir acc) = .dir (acc ++ ss) := by
  induction ss with
  | nil => intro acc _ _; simp
  | cons hd tl ih =>
    intro acc hdisj hnd
    obtain ⟨n, t⟩ := hd
    have hacc : lookupEntry acc n = none := hdisj (n, t) (by simp)
    have hstep : cpR t n (.dir acc) [] = .dir (acc ++ [(n, t)]) := by
      have hf : (FSTree.dir acc).find? [n] = none := by
        simp [FSTree.find?, hacc]
      have hw : ∀ s : FSTree, (FSTree.dir acc).write [n] s = .dir (acc ++ [(n, s)]) := by
        intro s
        simp [FSTree.write, hacc]
      have hcp : cpAt t (.dir acc) [n] = .dir (acc ++ [(n, t)]) := by
        cases t with
        | file c =>
          show (match (FSTree.dir acc).find? [n] with
            | none => (FSTree.dir acc).write [n] (.file c)
            | some (.file _) => (FSTree.dir acc).write [n] (.file c)
            | some (.dir _) => FSTree.dir acc) = _
          rw [hf]
          exact hw (.file c)
        | dir es2 =>
          show (match (FSTree.dir acc).find? [n] with
            | none => (FSTree.dir acc).write [n] (.dir es2)
            | some (.file _) => FSTree.dir acc
            | some (.dir _) => cpAtList es2 (.dir acc) [n]) = _
          rw [hf]
          exact hw (.dir es2)
      simp only [cpR, FSTree.find?]
      simpa using hcp
    rw [List.foldl_cons, hstep]
    have hnd' : (tl.map Prod.fst).Nodup := (List.nodup_cons.mp hnd).2
    have hn_not : n ∉ tl.map Prod.fst := (List.nodup_cons.mp hnd).1
    have hdisj' : ∀ e ∈ tl, lookupEntry (acc ++ [(n, t)]) e.1 = none := by
      intro e he
      have h1 : lookupEntry acc e.1 = none := hdisj e (by simp [he])
      have h2 : lookupEntry [(n, t)] e.1 = none := by
        have : n ≠ e.1 := by
          intro hcontra
          exact hn_not (hcontra ▸ List.mem_map_of_mem Prod.fst he)
        simp [lookupEntry, this]
      exact lookupEntry_append_none _ _ _ h1 h2
    rw [ih (acc ++ [(n, t)]) hdisj' hnd']
    simp

theorem selFoldE_propagates {ε : Type} (e : ε) (src : FSTree) (ws : List (List String)) :
    ∀ d : FSTree,
      ws.foldlM (selStepE (failPrim e) src) d = .error e ∨
      ws.foldlM (selStepE (failPrim e) src) d = .ok (ws.foldl (selStep src) d) := by
  induction ws with
  | nil => intro d; exact .inr rfl
  | cons q ws ih =>
    intro d
    rw [List.foldlM_cons, List.foldl_cons]
    by_cases h : ((if (d.find? q.dropLast).isSome then d else createDirDestRoot d).find? q).isSome
    · have hstep : selStepE (failPrim e) src d q = .ok (selStep src d q) := by
        unfold selStepE selStep
        simp only [h, if_pos]
      have hstep' : selStep src d q
          = (if (d.find? q.dropLast).isSome then d else createDirDestRoot d) := by
        unfold selStep
        simp only [h, if_pos]
      rw [hstep]
      show ws.foldlM (selStepE (failPrim e) src) (selStep src d q) = _ ∨ _
      exact ih _
    · left
      have hstep : selStepE (failPrim e) src d q = .error e := by
        unfold selStepE failPrim
        simp only [h, if_neg]
        simp
      rw [hstep]
      rfl

theorem lookupEntry_append_left (a b : List (String × FSTree)) (n : String)
    (v : FSTree) (h : lookupEntry a n = some v) :
    lookupEntry (a ++ b) n = some v := by
  induction a with
  | nil => simp [lookupEntry] at h
  | cons hd tl ih =>
    obtain ⟨m, t⟩ := hd
    by_cases hm : m = n
    · simp [lookupEntry, hm] at h ⊢
      exact h
    · simp [lookupEntry, hm] at h ⊢
      exact ih h

theorem lookupEntry_append_right (a b : List (String × FSTree)) (n : String)
    (h : lookupEntry a n = none) :
    lookupEntry (a ++ b) n = lookupEntry b n := by
  induction a with
  | nil => rfl
  | cons hd tl ih =>
    obtain ⟨m, t⟩ := hd
    by_cases hm : m = n
    · simp [lookupEntry, hm] at h
    · simp [lookupEntry, hm] at h ⊢
      exact ih h

theorem lookupEntry_none_iff (es : List (String × FSTree)) (n : String) :
    lookupEntry es n = none ↔ ∀ e ∈ es, e.1 ≠ n := by
  induction es with
  | nil => simp [lookupEntry]
  | cons hd tl ih =>
    obtain ⟨m, t⟩ := hd
    by_cases hm : m = n
    · simp [lookupEntry, hm]
    · simp [lookupEntry, hm, ih]

theorem nodupKeys_nodup (es : List (String × FSTree)) :
    nodupKeys es = true ↔ (es.map Prod.fst).Nodup := by
  simp [nodupKeys]

theorem nodupKeys_lookup (es : List (String × FSTree)) (n : String) (t : FSTree)
    (hnd : nodupKeys es = true) (hm : (n, t) ∈ es) :
    lookupEntry es n = some t := by
  rw [nodupKeys_nodup] at hnd
  induction es with
  | nil => simp at hm
  | cons hd tl ih =>
    obtain ⟨m, u⟩ := hd
    simp only [List.map_cons, List.nodup_cons] at hnd
    rcases List.mem_cons.mp hm with heq | htl
    · injection heq with h1 h2
      subst h1; subst h2
      simp [lookupEntry]
    · by_cases hmn : m = n
      · subst hmn
        exact absurd (List.mem_map_of_mem Prod.fst htl) hnd.1
      · simp only [lookupEntry, if_neg hmn]
        exact ih hnd.2 htl

theorem lookupEntry_updateFirst_self (es : List (String × FSTree)) (n : String)
    (dt v : FSTree) (h : lookupEntry es n = some dt) :
    lookupEntry (updateFirst es n v) n = some v := by
  induction es with
  | nil => simp [lookupEntry] at h
  | cons hd tl ih =>
    obtain ⟨m, t⟩ := hd
    by_cases hm : m = n
    · simp [updateFirst, hm, lookupEntry]
    · simp [lookupEntry, hm] at h
      simp [updateFirst, hm, lookupEntry]
      exact ih h

theorem lookupEntry_updateFirst_ne (es : List (String × FSTree)) (n m : String)
    (v : FSTree) (h : m ≠ n) :
    lookupEntry (updateFirst es n v) m = lookupEntry es m := by
  induction es with
  | nil => rfl
  | cons hd tl ih =>
    obtain ⟨k, t⟩ := hd
    by_cases hk : k = n
    · subst hk
      have hk2 : ¬(k = m) := fun hh => h hh.symm
      simp [updateFirst, lookupEntry, hk2]
    · by_cases hkm : k = m
      · subst hkm
        simp [updateFirst, hk, lookupEntry]
      · simp [updateFirst, hk, lookupEntry, hkm, ih]

theorem updateFirst_updateFirst (es : List (String × FSTree)) (n : String)
    (a b : FSTree) :
    updateFirst (updateFirst es n a) n b = updateFirst es n b := by
  induction es with
  | nil => rfl
  | cons hd tl ih =>
    obtain ⟨m, t⟩ := hd
    by_cases hm : m = n
    · simp [updateFirst, hm]
    · simp [updateFirst, hm, ih]

theorem wfList_mem (es : List (String × FSTree)) (e : String × FSTree)
    (hw : wfList es = true) (hm : e ∈ es) : e.2.wfB = true := by
  induction es with
  | nil => simp at hm
  | cons hd tl ih =>
    obtain ⟨m, t⟩ := hd
    rw [wfList] at hw
    simp only [Bool.and_eq_true] at hw
    rcases List.mem_cons.mp hm with heq | htl
    · subst heq; exact hw.1
    · exact ih hw.2 htl

theorem nodupKeys_sublist (es fs : List (String × FSTree))
    (hs : fs.Sublist es) (hnd : nodupKeys es = true) : nodupKeys fs = true := by
  rw [nodupKeys_nodup] at hnd ⊢
  exact List.Nodup.sublist (hs.map Prod.fst) hnd

theorem wfList_sublist (es fs : List (String × FSTree))
    (hs : fs.Sublist es) (hw : wfList es = true) : wfList fs = true := by
  induction hs with
  | slnil => rfl
  | cons e _ ih =>
    obtain ⟨m, t⟩ := e
    rw [wfList] at hw
    simp only [Bool.and_eq_true] at hw
    exact ih hw.2
  | cons₂ e _ ih =>
    obtain ⟨m, t⟩ := e
    rw [wfList] at hw ⊢
    simp only [Bool.and_eq_true] at hw ⊢
    exact ⟨hw.1, ih hw.2⟩

theorem find?_cons (es : List (String × FSTree)) (n : String) (r : List String) :
    (FSTree.dir es).find? (n :: r)
      = match lookupEntry es n with
        | some t' => t'.find? r
        | none => none := rfl

theorem find?_cons_some (es : List (String × FSTree)) (n : String) (r : List String)
    (dt : FSTree) (h : lookupEntry es n = some dt) :
    (FSTree.dir es).find? (n :: r) = dt.find? r := by
  rw [find?_cons, h]

theorem write_file_ne_nil (c : String) (p : List String) (S : FSTree) (hp : p ≠ []) :
    (FSTree.file c).write p S = .file c := by
  cases p with
  | nil => exact absurd rfl hp
  | cons a r => rfl

theorem write_cons_some (es : List (String × FSTree)) (n : String) (r : List String)
    (S dt : FSTree) (h : lookupEntry es n = some dt) :
    (FSTree.dir es).write (n :: r) S = .dir (updateFirst es n (dt.write r S)) := by
  show (match lookupEntry es n with
    | some u => FSTree.dir (updateFirst es n (u.write r S))
    | none =>
      match r with
      | [] => FSTree.dir (es ++ [(n, S)])
      | _ :: _ => FSTree.dir es) = _
  rw [h]

theorem write_cons_none_nil (es : List (String × FSTree)) (n : String) (S : FSTree)
    (h : lookupEntry es n = none) :
    (FSTree.dir es).write [n] S = .dir (es ++ [(n, S)]) := by
  show (match lookupEntry es n with
    | some u => FSTree.dir (updateFirst es n (u.write [] S))
    | none =>
      match ([] : List String) with
      | [] => FSTree.dir (es ++ [(n, S)])
      | _ :: _ => FSTree.dir es) = _
  rw [h]

theorem write_cons_none_cons (es : List (String × FSTree)) (n a : String)
    (r : List String) (S : FSTree) (h : lookupEntry es n = none) :
    (FSTree.dir es).write (n :: a :: r) S = .dir es := by
  show (match lookupEntry es n with
    | some u => FSTree.dir (updateFirst es n (u.write (a :: r) S))
    | none =>
      match a :: r with
      | [] => FSTree.dir (es ++ [(n, S)])
      | _ :: _ => FSTree.dir es) = _
  rw [h]

theorem cpAt_none (S dt : FSTree) (r : List String) (h : dt.find? r = none) :
    cpAt S dt r = dt.write r S := by
  cases S with
  | file c =>
    show (match dt.find? r with
      | none => dt.write r (.file c)
      | some (.file _) => dt.write r (.file c)
      | some (.dir _) => dt) = _
    rw [h]
  | dir ss =>
    show (match dt.find? r with
      | none => dt.write r (.dir ss)
      | some (.file _) => dt
      | some (.dir _) => cpAtList ss dt r) = _
    rw [h]

theorem cpAt_file_file (c : String) (dt : FSTree) (r : List String) (c' : String)
    (h : dt.find? r = some (.file c')) :
    cpAt (.file c) dt r = dt.write r (.file c) := by
  show (match dt.find? r with
    | none => dt.write r (.file c)
    | some (.file _) => dt.write r (.file c)
    | some (.dir _) => dt) = _
  rw [h]

theorem cpAt_file_dir (ss : List (String × FSTree)) (dt : FSTree) (r : List String)
    (c' : String) (h : dt.find? r = some (.file c')) :
    cpAt (.dir ss) dt r = dt := by
  show (match dt.find? r with
    | none => dt.write r (.dir ss)
    | some (.file _) => dt
    | some (.dir _) => cpAtList ss dt r) = _
  rw [h]

theorem cpAt_dir_file (c : String) (dt : FSTree) (r : List String)
    (es2 : List (String × FSTree)) (h : dt.find? r = some (.dir es2)) :
    cpAt (.file c) dt r = dt := by
  show (match dt.find? r with
    | none => dt.write r (.file c)
    | some (.file _) => dt.write r (.file c)
    | some (.dir _) => dt) = _
  rw [h]

theorem cpAt_dir_dir (ss : List (String × FSTree)) (dt : FSTree) (r : List String)
    (es2 : List (String × FSTree)) (h : dt.find? r = some (.dir es2)) :
    cpAt (.dir ss) dt r = cpAtList ss dt r := by
  show (match dt.find? r with
    | none => dt.write r (.dir ss)
    | some (.file _) => dt
    | some (.dir _) => cpAtList ss dt r) = _
  rw [h]

theorem cpAtList_cons (m : String) (t : FSTree) (L : List (String × FSTree))
    (d : FSTree) (q : List String) :
    cpAtList ((m, t) :: L) d q = cpAtList L (cpAt t d (q ++ [m])) q := rfl

theorem cpR_dir_target (S : FSTree) (b : String) (d : FSTree) (q : List String)
    (es2 : List (String × FSTree)) (h : d.find? q = some (.dir es2)) :
    cpR S b d q = cpAt S d (q ++ [b]) := by
  simp only [cpR]
  rw [h]

theorem cpR_file_target_file (c : String) (b : String) (d : FSTree)
    (q : List String) (c' : String) (h : d.find? q = some (.file c')) :
    cpR (.file c) b d q = d.write q (.file c) := by
  simp only [cpR]
  rw [h]

theorem cpR_file_target_dir (ss : List (String × FSTree)) (b : String) (d : FSTree)
    (q : List String) (c' : String) (h : d.find? q = some (.file c')) :
    cpR (.dir ss) b d q = d := by
  simp only [cpR]
  rw [h]

theorem cpR_none_target (S : FSTree) (b : String) (d : FSTree) (q : List String)
    (h : d.find? q = none) :
    cpR S b d q = d.write q S := by
  simp only [cpR]
  rw [h]

theorem sizeOf_snd_lt_dir (L : List (String × FSTree)) (x : String × FSTree)
    (hx : x ∈ L) : sizeOf x.2 < sizeOf (FSTree.dir L) := by
  have h1 := List.sizeOf_lt_of_mem hx
  obtain ⟨a, b⟩ := x
  simp only [FSTree.dir.sizeOf_spec]
  simp only [Prod.mk.sizeOf_spec] at h1
  omega

theorem cpAtList_lift_of (L : List (String × FSTree))
    (hP : ∀ x ∈ L, ∀ (es : List (String × FSTree)) (n : String) (dt : FSTree)
      (r : List String), lookupEntry es n = some dt →
      cpAt x.2 (.dir es) (n :: r) = .dir (updateFirst es n (cpAt x.2 dt r))) :
    ∀ (es : List (String × FSTree)) (n : String) (dt : FSTree) (r : List String),
      lookupEntry es n = some dt →
      cpAtList L (.dir es) (n :: r) = .dir (updateFirst es n (cpAtList L dt r)) := by
  induction L with
  | nil =>
    intro es n dt r h
    show FSTree.dir es = .dir (updateFirst es n dt)
    rw [lookupEntry_self_updateFirst es n dt h]
  | cons x L ih =>
    intro es n dt r h
    obtain ⟨m, t⟩ := x
    rw [cpAtList_cons, cpAtList_cons]
    have h1 : cpAt t (.dir es) ((n :: r) ++ [m])
        = .dir (updateFirst es n (cpAt t dt (r ++ [m]))) := by
      rw [List.cons_append]
      exact hP (m, t) (by simp) es n dt (r ++ [m]) h
    rw [h1]
    have h2 : lookupEntry (updateFirst es n (cpAt t dt (r ++ [m]))) n
        = some (cpAt t dt (r ++ [m])) :=
      lookupEntry_updateFirst_self es n dt _ h
    rw [ih (fun x hx => hP x (List.mem_cons_of_mem _ hx))
      (updateFirst es n (cpAt t dt (r ++ [m]))) n (cpAt t dt (r ++ [m])) r h2,
      updateFirst_updateFirst]

theorem cpAt_lift_aux : ∀ (k : Nat) (S : FSTree), sizeOf S ≤ k →
    ∀ (es : List (String × FSTree)) (n : String) (dt : FSTree) (r : List String),
      lookupEntry es n = some dt →
      cpAt S (.dir es) (n :: r) = .dir (updateFirst es n (cpAt S dt r)) := by
  intro k
  induction k with
  | zero =>
    intro S hS
    exfalso
    cases S with
    | file c =>
      simp only [FSTree.file.sizeOf_spec] at hS
      omega
    | dir es =>
      simp only [FSTree.dir.sizeOf_spec] at hS
      omega
  | succ k ih =>
    intro S hS es n dt r h
    have hfc : (FSTree.dir es).find? (n :: r) = dt.find? r := find?_cons_some es n r dt h
    cases S with
    | file c =>
      cases hdt : dt.find? r with
      | none =>
        rw [cpAt_none _ _ _ (hfc.trans hdt), cpAt_none _ _ _ hdt,
            write_cons_some es n r _ dt h]
      | some u =>
        cases u with
        | file c' =>
          rw [cpAt_file_file c _ _ c' (hfc.trans hdt), cpAt_file_file c _ _ c' hdt,
              write_cons_some es n r _ dt h]
        | dir es2 =>
          rw [cpAt_dir_file c _ _ es2 (hfc.trans hdt), cpAt_dir_file c _ _ es2 hdt,
              lookupEntry_self_updateFirst es n dt h]
    | dir ss =>
      cases hdt : dt.find? r with
      | none =>
        rw [cpAt_none _ _ _ (hfc.trans hdt), cpAt_none _ _ _ hdt,
            write_cons_some es n r _ dt h]
      | some u =>
        cases u with
        | file c' =>
          rw [cpAt_file_dir ss _ _ c' (hfc.trans hdt), cpAt_file_dir ss _ _ c' hdt,
              lookupEntry_self_updateFirst es n dt h]
        | dir es2 =>
          rw [cpAt_dir_dir ss _ _ es2 (hfc.trans hdt), cpAt_dir_dir ss _ _ es2 hdt]
          refine cpAtList_lift_of ss (fun x hx => ih x.2 ?_) es n dt r h
          have hlt := sizeOf_snd_lt_dir ss x hx
          simp only [FSTree.dir.sizeOf_spec] at hS hlt
          omega

theorem cpAt_lift (S : FSTree) (es : List (String × FSTree)) (n : String)
    (dt : FSTree) (r : List String) (h : lookupEntry es n = some dt) :
    cpAt S (.dir es) (n :: r) = .dir (updateFirst es n (cpAt S dt r)) :=
  cpAt_lift_aux (sizeOf S) S le_rfl es n dt r h

theorem cpR_lift (S : FSTree) (b : String) (es : List (String × FSTree)) (n : String)
    (dt : FSTree) (r : List String) (h : lookupEntry es n = some dt) :
    cpR S b (.dir es) (n :: r) = .dir (updateFirst es n (cpR S b dt r)) := by
  have hfc : (FSTree.dir es).find? (n :: r) = dt.find? r := find?_cons_some es n r dt h
  cases hdt : dt.find? r with
  | none =>
    rw [cpR_none_target S b _ _ (hfc.trans hdt), cpR_none_target S b dt r hdt,
        write_cons_some es n r S dt h]
  | some u =>
    cases u with
    | file c' =>
      cases S with
      | file c =>
        rw [cpR_file_target_file c b _ _ c' (hfc.trans hdt),
            cpR_file_target_file c b dt r c' hdt, write_cons_some es n r _ dt h]
      | dir ss =>
        rw [cpR_file_target_dir ss b _ _ c' (hfc.trans hdt),
            cpR_file_target_dir ss b dt r c' hdt,
            lookupEntry_self_updateFirst es n dt h]
    | dir es2 =>
      rw [cpR_dir_target S b _ _ es2 (hfc.trans hdt), cpR_dir_target S b dt r es2 hdt]
      rw [show (n :: r) ++ [b] = n :: (r ++ [b]) from rfl]
      exact cpAt_lift S es n dt (r ++ [b]) h

theorem walkSub_prefix_of (es : List (String × FSTree))
    (hP : ∀ x ∈ es, ∀ p : List String,
      getAllFilePaths x.2 p = (getAllFilePaths x.2 []).map (p ++ ·)) :
    ∀ p : List String, walkSub es p = (walkSub es []).map (p ++ ·) := by
  induction es with
  | nil => intro p; rfl
  | cons x rest ih =>
    intro p
    obtain ⟨n, t⟩ := x
    have hrest := ih (fun x hx => hP x (List.mem_cons_of_mem _ hx)) p
    cases t with
    | file c =>
      have hstep : walkSub ((n, FSTree.file c) :: rest) p = walkSub rest p := by
        show [] ++ walkSub rest p = walkSub rest p
        exact List.nil_append _
      have hstep0 : walkSub ((n, FSTree.file c) :: rest) [] = walkSub rest [] := by
        show [] ++ walkSub rest [] = walkSub rest []
        exact List.nil_append _
      rw [hstep, hstep0]
      exact hrest
    | dir es2 =>
      show getAllFilePaths (.dir es2) (p ++ [n]) ++ walkSub rest p
        = ((getAllFilePaths (.dir es2) [n] ++ walkSub rest []).map (p ++ ·))
      rw [List.map_append, hrest]
      congr 1
      rw [hP (n, .dir es2) (by simp) (p ++ [n]), hP (n, .dir es2) (by simp) [n],
          List.map_map]
      apply List.map_congr_left
      intro q _
      show (p ++ [n]) ++ q = p ++ ([n] ++ q)
      rw [List.append_assoc]

theorem getAllFilePaths_shift_aux : ∀ (k : Nat) (t : FSTree), sizeOf t ≤ k →
    ∀ p : List String, getAllFilePaths t p = (getAllFilePaths t []).map (p ++ ·) := by
  intro k
  induction k with
  | zero =>
    intro t ht
    exfalso
    cases t with
    | file c => simp only [FSTree.file.sizeOf_spec] at ht; omega
    | dir es => simp only [FSTree.dir.sizeOf_spec] at ht; omega
  | succ k ih =>
    intro t ht p
    cases t with
    | file c => rfl
    | dir es =>
      show (es.filter fun e => e.2.isDirB).map (fun e => p ++ [e.1])
          ++ (es.filter fun e => !e.2.isDirB).map (fun e => p ++ [e.1])
          ++ walkSub es p
        = ((es.filter fun e => e.2.isDirB).map (fun e => [e.1])
          ++ (es.filter fun e => !e.2.isDirB).map (fun e => [e.1])
          ++ walkSub es []).map (p ++ ·)
      rw [List.map_append, List.map_append, List.map_map, List.map_map]
      rw [walkSub_prefix_of es (fun x hx => ih x.2 (by
        have hlt := sizeOf_snd_lt_dir es x hx
        simp only [FSTree.dir.sizeOf_spec] at ht hlt
        omega)) p]
      rfl

theorem getAllFilePaths_shift (t : FSTree) (p : List String) :
    getAllFilePaths t p = (getAllFilePaths t []).map (p ++ ·) :=
  getAllFilePaths_shift_aux (sizeOf t) t le_rfl p

theorem mem_walkSub_cons (es : List (String × FSTree)) (q : List String)
    (hq : q ∈ walkSub es []) : ∃ n q0, q = n :: q0 := by
  induction es with
  | nil => exact absurd hq (List.not_mem_nil q)
  | cons x rest ih =>
    obtain ⟨n, t⟩ := x
    cases t with
    | file c => exact ih (by simpa using hq)
    | dir es2 =>
      rw [show walkSub ((n, FSTree.dir es2) :: rest) []
          = getAllFilePaths (.dir es2) ([] ++ [n]) ++ walkSub rest [] from rfl] at hq
      rcases List.mem_append.mp hq with h1 | h2
      · rw [getAllFilePaths_shift (.dir es2) ([] ++ [n])] at h1
        obtain ⟨q0, _, hq0e⟩ := List.mem_map.mp h1
        exact ⟨n, q0, hq0e.symm⟩
      · exact ih h2

theorem walk_ne_nil (t : FSTree) (q : List String) (hq : q ∈ getAllFilePaths t []) :
    q ≠ [] := by
  cases t with
  | file c => exact absurd hq (List.not_mem_nil q)
  | dir es =>
    rcases List.mem_append.mp hq with h12 | h3
    · rcases List.mem_append.mp h12 with h1 | h2
      · obtain ⟨e, _, he⟩ := List.mem_map.mp h1
        rw [← he]
        simp
      · obtain ⟨e, _, he⟩ := List.mem_map.mp h2
        rw [← he]
        simp
    · obtain ⟨n, q0, hq0⟩ := mem_walkSub_cons es q h3
      rw [hq0]
      simp

theorem mem_walkSub_shape (es : List (String × FSTree)) (q : List String)
    (hq : q ∈ walkSub es []) : ∃ n a r, q = n :: a :: r := by
  induction es with
  | nil => exact absurd hq (List.not_mem_nil q)
  | cons x rest ih =>
    obtain ⟨n, t⟩ := x
    cases t with
    | file c => exact ih (by simpa using hq)
    | dir es2 =>
      rw [show walkSub ((n, FSTree.dir es2) :: rest) []
          = getAllFilePaths (.dir es2) ([] ++ [n]) ++ walkSub rest [] from rfl] at hq
      rcases List.mem_append.mp hq with h1 | h2
      · rw [getAllFilePaths_shift (.dir es2) ([] ++ [n])] at h1
        obtain ⟨q0, hq0m, hq0e⟩ := List.mem_map.mp h1
        have hne := walk_ne_nil (.dir es2) q0 hq0m
        cases q0 with
        | nil => exact absurd rfl hne
        | cons a r => exact ⟨n, a, r, hq0e.symm⟩
      · exact ih h2

theorem createDirDestRoot_eq (d : FSTree) : createDirDestRoot d = d := by
  cases d <;> rfl

theorem selStep_eq (src d : FSTree) (q : List String) :
    selStep src d q
      = if (d.find? q).isSome then d
        else cpR ((src.find? q).getD (.dir [])) (q.getLastD "") d q.dropLast := by
  show (if ((if (d.find? q.dropLast).isSome then d else createDirDestRoot d).find? q).isSome
      then (if (d.find? q.dropLast).isSome then d else createDirDestRoot d)
      else cpR ((src.find? q).getD (.dir [])) (q.getLastD "")
        (if (d.find? q.dropLast).isSome then d else createDirDestRoot d) q.dropLast) = _
  rw [createDirDestRoot_eq, ite_self]

theorem getLastD_cons_cons (n a : String) (l : List String) (x : String) :
    (n :: a :: l).getLastD x = (a :: l).getLastD x := by
  simp [List.getLastD]

theorem selStep_lift (src t : FSTree) (es : List (String × FSTree)) (n : String)
    (dt : FSTree) (q' : List String) (hne : q' ≠ [])
    (hdt : lookupEntry es n = some dt)
    (hsrc : src.find? (n :: q') = t.find? q') :
    selStep src (.dir es) (n :: q') = .dir (updateFirst es n (selStep t dt q')) := by
  cases q' with
  | nil => exact absurd rfl hne
  | cons a q'' =>
    rw [selStep_eq, selStep_eq]
    rw [find?_cons_some es n (a :: q'') dt hdt, hsrc]
    by_cases hex : (dt.find? (a :: q'')).isSome = true
    · rw [if_pos hex, if_pos hex, lookupEntry_self_updateFirst es n dt hdt]
    · rw [if_neg hex, if_neg hex]
      rw [show (n :: a :: q'').dropLast = n :: (a :: q'').dropLast from rfl]
      rw [getLastD_cons_cons n a q'' ""]
      exact cpR_lift _ _ es n dt _ hdt

theorem segment_fold (src t : FSTree) (n : String) (ws : List (List String))
    (hws : ∀ q' ∈ ws, q' ≠ [])
    (hsrc : ∀ q' ∈ ws, src.find? (n :: q') = t.find? q') :
    ∀ (es : List (String × FSTree)) (dt : FSTree),
      lookupEntry es n = some dt →
      (ws.map (n :: ·)).foldl (selStep src) (.dir es)
        = .dir (updateFirst es n (ws.foldl (selStep t) dt)) := by
  induction ws with
  | nil =>
    intro es dt h
    show FSTree.dir es = .dir (updateFirst es n dt)
    rw [lookupEntry_self_updateFirst es n dt h]
  | cons q' ws ih =>
    intro es dt h
    rw [List.map_cons, List.foldl_cons, List.foldl_cons]
    rw [selStep_lift src t es n dt q' (hws q' (by simp)) h (hsrc q' (by simp))]
    rw [ih (fun x hx => hws x (List.mem_cons_of_mem _ hx))
        (fun x hx => hsrc x (List.mem_cons_of_mem _ hx))
        (updateFirst es n (selStep t dt q')) (selStep t dt q')
        (lookupEntry_updateFirst_self es n dt _ h),
      updateFirst_updateFirst]

theorem find?_singleton (cur : List (String × FSTree)) (n : String) :
    (FSTree.dir cur).find? [n] = lookupEntry cur n := by
  rw [find?_cons]
  cases h : lookupEntry cur n with
  | none => rfl
  | some t => rfl

theorem cpR_append (t : FSTree) (n : String) (acc : List (String × FSTree))
    (hacc : lookupEntry acc n = none) :
    cpR t n (.dir acc) [] = .dir (acc ++ [(n, t)]) := by
  rw [cpR_dir_target t n (.dir acc) [] acc rfl]
  rw [show ([] : List String) ++ [n] = [n] from rfl]
  have hf : (FSTree.dir acc).find? [n] = none := by rw [find?_singleton, hacc]
  rw [cpAt_none t _ [n] hf, write_cons_none_nil acc n t hacc]

theorem lookupEntry_snoc_ne (cur : List (String × FSTree)) (n : String)
    (t : FSTree) (m : String) (hm : m ≠ n) :
    lookupEntry (cur ++ [(n, t)]) m = lookupEntry cur m := by
  cases h : lookupEntry cur m with
  | some v => exact lookupEntry_append_left cur [(n, t)] m v h
  | none =>
    rw [lookupEntry_append_right cur [(n, t)] m h]
    have hnm : ¬n = m := fun hh => hm hh.symm
    simp [lookupEntry, hnm]

theorem nodupKeys_cons_head (n : String) (t : FSTree) (L : List (String × FSTree))
    (hnd : nodupKeys ((n, t) :: L) = true) :
    nodupKeys L = true ∧ ∀ x ∈ L, x.1 ≠ n := by
  rw [nodupKeys_nodup] at hnd
  simp only [List.map_cons, List.nodup_cons] at hnd
  refine ⟨(nodupKeys_nodup L).mpr hnd.2, fun x hx hxn => ?_⟩
  exact hnd.1 (hxn ▸ List.mem_map_of_mem Prod.fst hx)

theorem phase_append (ss : List (String × FSTree)) :
    ∀ (L : List (String × FSTree)) (cur : List (String × FSTree)),
      (∀ e ∈ L, lookupEntry ss e.1 = some e.2) →
      nodupKeys L = true →
      (L.map (fun e => [e.1])).foldl (selStep (.dir ss)) (.dir cur)
        = .dir (cur ++ L.filter fun e => (lookupEntry cur e.1).isNone) := by
  intro L
  induction L with
  | nil => intro cur _ _; simp
  | cons e L ih =>
    intro cur hL hnd
    obtain ⟨n, t⟩ := e
    obtain ⟨hnd', hne⟩ := nodupKeys_cons_head n t L hnd
    rw [List.map_cons, List.foldl_cons]
    have hsome : lookupEntry ss n = some t := hL (n, t) (by simp)
    have hsrc : (FSTree.dir ss).find? [n] = some t := by rw [find?_singleton, hsome]
    have hstep := selStep_eq (.dir ss) (.dir cur) [n]
    rw [find?_singleton cur n, hsrc] at hstep
    cases hcur : lookupEntry cur n with
    | some dv =>
      rw [hcur, if_pos (by simp)] at hstep
      rw [hstep, ih cur (fun x hx => hL x (List.mem_cons_of_mem _ hx)) hnd']
      congr 1
      rw [List.filter_cons]
      simp [hcur]
    | none =>
      rw [hcur, if_neg (by simp)] at hstep
      rw [show (some t).getD (FSTree.dir []) = t from rfl] at hstep
      rw [show ([n] : List String).getLastD "" = n from rfl] at hstep
      rw [show ([n] : List String).dropLast = [] from rfl] at hstep
      rw [cpR_append t n cur hcur] at hstep
      rw [hstep, ih (cur ++ [(n, t)]) (fun x hx => hL x (List.mem_cons_of_mem _ hx)) hnd']
      have hfc : (L.filter fun e => (lookupEntry (cur ++ [(n, t)]) e.1).isNone)
          = L.filter fun e => (lookupEntry cur e.1).isNone := by
        apply List.filter_congr
        intro x hx
        rw [lookupEntry_snoc_ne cur n t x.1 (hne x hx)]
      rw [hfc, List.filter_cons]
      simp [hcur, List.append_assoc]

theorem phaseA_file (ss : List (String × FSTree)) :
    ∀ (L : List (String × FSTree)) (cur : String),
      (∀ e ∈ L, lookupEntry ss e.1 = some e.2 ∧ e.2.isDirB = true) →
      (L.map (fun e => [e.1])).foldl (selStep (.dir ss)) (.file cur) = .file cur := by
  intro L
  induction L with
  | nil => intro cur _; rfl
  | cons e L ih =>
    intro cur hL
    obtain ⟨n, t⟩ := e
    obtain ⟨hsome, hdir⟩ := hL (n, t) (by simp)
    rw [List.map_cons, List.foldl_cons]
    have hstep := selStep_eq (.dir ss) (.file cur) [n]
    rw [show (FSTree.file cur).find? [n] = none from rfl, if_neg (by simp)] at hstep
    rw [show ([n] : List String).dropLast = [] from rfl] at hstep
    rw [show ([n] : List String).getLastD "" = n from rfl] at hstep
    have hsrc : (FSTree.dir ss).find? [n] = some t := by rw [find?_singleton, hsome]
    rw [hsrc, show (some t).getD (FSTree.dir []) = t from rfl] at hstep
    cases t with
    | file c2 => simp [FSTree.isDirB] at hdir
    | dir es2 =>
      rw [cpR_file_target_dir es2 n (.file cur) [] cur rfl] at hstep
      rw [hstep]
      exact ih cur (fun x hx => hL x (List.mem_cons_of_mem _ hx))

theorem phaseB_file (ss : List (String × FSTree)) :
    ∀ (L : List (String × FSTree)) (cur : String),
      (∀ e ∈ L, lookupEntry ss e.1 = some e.2 ∧ e.2.isDirB = false) →
      (L.map (fun e => [e.1])).foldl (selStep (.dir ss)) (.file cur)
        = .file (match lastFileOpt L with | some c' => c' | none => cur) := by
  intro L
  induction L with
  | nil => intro cur _; rfl
  | cons e L ih =>
    intro cur hL
    obtain ⟨n, t⟩ := e
    obtain ⟨hsome, hfile⟩ := hL (n, t) (by simp)
    cases t with
    | dir es2 => simp [FSTree.isDirB] at hfile
    | file c2 =>
      rw [List.map_cons, List.foldl_cons]
      have hstep := selStep_eq (.dir ss) (.file cur) [n]
      rw [show (FSTree.file cur).find? [n] = none from rfl, if_neg (by simp)] at hstep
      rw [show ([n] : List String).dropLast = [] from rfl] at hstep
      rw [show ([n] : List String).getLastD "" = n from rfl] at hstep
      have hsrc : (FSTree.dir ss).find? [n] = some (.file c2) := by
        rw [find?_singleton, hsome]
      rw [hsrc, show (some (FSTree.file c2)).getD (FSTree.dir []) = .file c2 from rfl]
        at hstep
      rw [cpR_file_target_file c2 n (.file cur) [] cur rfl] at hstep
      rw [show (FSTree.file cur).write [] (.file c2) = .file c2 from rfl] at hstep
      rw [hstep, ih c2 (fun x hx => hL x (List.mem_cons_of_mem _ hx))]
      cases hlf : lastFileOpt L with
      | some c' =>
        rw [show lastFileOpt ((n, FSTree.file c2) :: L)
            = match lastFileOpt L with
              | some c => some c
              | none => some c2 from rfl, hlf]
      | none =>
        rw [show lastFileOpt ((n, FSTree.file c2) :: L)
            = match lastFileOpt L with
              | some c => some c
              | none => some c2 from rfl, hlf]

theorem phaseC_file (src : FSTree) :
    ∀ (ws : List (List String)) (cur : String),
      (∀ q ∈ ws, ∃ n a r, q = n :: a :: r) →
      ws.foldl (selStep src) (.file cur) = .file cur := by
  intro ws
  induction ws with
  | nil => intro cur _; rfl
  | cons q ws ih =>
    intro cur hw
    obtain ⟨n, a, r, hq⟩ := hw q (by simp)
    subst hq
    rw [List.foldl_cons]
    have hstep := selStep_eq src (.file cur) (n :: a :: r)
    rw [show (FSTree.file cur).find? (n :: a :: r) = none from rfl,
        if_neg (by simp)] at hstep
    rw [show (n :: a :: r).dropLast = n :: (a :: r).dropLast from rfl] at hstep
    rw [cpR_none_target _ _ (.file cur) (n :: (a :: r).dropLast) rfl] at hstep
    rw [write_file_ne_nil cur (n :: (a :: r).dropLast) _ (by simp)] at hstep
    rw [hstep]
    exact ih cur (fun x hx => hw x (List.mem_cons_of_mem _ hx))

theorem lastFileOpt_filter (ss : List (String × FSTree)) :
    lastFileOpt (ss.filter fun e => !e.2.isDirB) = lastFileOpt ss := by
  induction ss with
  | nil => rfl
  | cons e rest ih =>
    obtain ⟨n, t⟩ := e
    cases t with
    | dir es2 =>
      rw [show ((n, FSTree.dir es2) :: rest).filter (fun e => !e.2.isDirB)
          = rest.filter (fun e => !e.2.isDirB) from by simp [FSTree.isDirB], ih]
      rw [show lastFileOpt ((n, FSTree.dir es2) :: rest)
          = match lastFileOpt rest with
            | some c => some c
            | none => none from rfl]
      cases lastFileOpt rest <;> rfl
    | file c2 =>
      rw [show ((n, FSTree.file c2) :: rest).filter (fun e => !e.2.isDirB)
          = (n, FSTree.file c2) :: rest.filter (fun e => !e.2.isDirB)
          from by simp [FSTree.isDirB]]
      rw [show lastFileOpt ((n, FSTree.file c2) :: rest.filter fun e => !e.2.isDirB)
          = match lastFileOpt (rest.filter fun e => !e.2.isDirB) with
            | some c => some c
            | none => some c2 from rfl, ih]
      rfl

theorem mergeSel_file_root (ss : List (String × FSTree)) (c : String)
    (hnd : nodupKeys ss = true) :
    mergeSel (.dir ss) (.file c) = mergeDen (.dir ss) (.file c) := by
  show (((ss.filter fun e => e.2.isDirB).map (fun e => [e.1])
      ++ (ss.filter fun e => !e.2.isDirB).map (fun e => [e.1]))
      ++ walkSub ss []).foldl (selStep (.dir ss)) (.file c) = _
  rw [List.foldl_append, List.foldl_append]
  rw [phaseA_file ss (ss.filter fun e => e.2.isDirB) c (fun e he => by
    obtain ⟨hm, hp⟩ := List.mem_filter.mp he
    exact ⟨nodupKeys_lookup ss e.1 e.2 hnd hm, hp⟩)]
  rw [phaseB_file ss (ss.filter fun e => !e.2.isDirB) c (fun e he => by
    obtain ⟨hm, hp⟩ := List.mem_filter.mp he
    refine ⟨nodupKeys_lookup ss e.1 e.2 hnd hm, ?_⟩
    simpa using hp)]
  rw [phaseC_file (.dir ss) (walkSub ss []) _ (fun q hq => mem_walkSub_shape ss q hq)]
  rw [lastFileOpt_filter ss]
  rw [show mergeDen (.dir ss) (.file c)
      = match lastFileOpt ss with
        | some c' => FSTree.file c'
        | none => FSTree.file c from rfl]
  cases lastFileOpt ss <;> rfl

theorem updateFirst_keys (es : List (String × FSTree)) (n : String) (v : FSTree) :
    (updateFirst es n v).map Prod.fst = es.map Prod.fst := by
  induction es with
  | nil => rfl
  | cons d rest ih =>
    obtain ⟨m, u⟩ := d
    by_cases hm : m = n
    · subst hm; simp [updateFirst]
    · simp [updateFirst, hm, ih]

theorem nodupKeys_updateFirst (es : List (String × FSTree)) (n : String) (v : FSTree) :
    nodupKeys (updateFirst es n v) = nodupKeys es := by
  rw [nodupKeys, nodupKeys, updateFirst_keys]

theorem map_updateFirst_switch (n : String) (v dt : FSTree)
    (fL fC : String × FSTree → String × FSTree)
    (ha : fL (n, v) = (n, v)) (hb : fC (n, dt) = (n, v))
    (hc : ∀ d : String × FSTree, d.1 ≠ n → fL d = fC d) :
    ∀ cur : List (String × FSTree), nodupKeys cur = true →
      lookupEntry cur n = some dt →
      (updateFirst cur n v).map fL = cur.map fC := by
  intro cur
  induction cur with
  | nil => intro _ h; simp [lookupEntry] at h
  | cons d rest ih =>
    intro hnd h
    obtain ⟨m, u⟩ := d
    obtain ⟨hnd', hne⟩ := nodupKeys_cons_head m u rest hnd
    by_cases hm : m = n
    · subst hm
      simp only [lookupEntry, if_pos rfl] at h
      injection h with h2
      subst h2
      rw [show updateFirst ((m, u) :: rest) m v = (m, v) :: rest
          from by simp [updateFirst]]
      rw [List.map_cons, List.map_cons, ha, hb]
      congr 1
      exact List.map_congr_left (fun x hx => hc x (hne x hx))
    · rw [show updateFirst ((m, u) :: rest) n v = (m, u) :: updateFirst rest n v
          from by simp [updateFirst, hm]]
      rw [List.map_cons, List.map_cons, hc (m, u) hm]
      congr 1
      refine ih hnd' ?_
      simpa [lookupEntry, hm] using h

theorem phase3_fold (ss : List (String × FSTree)) :
    ∀ (L : List (String × FSTree)) (cur : List (String × FSTree)),
      (∀ e ∈ L, lookupEntry ss e.1 = some e.2) →
      nodupKeys L = true →
      nodupKeys cur = true →
      (∀ e ∈ L, e.2.isDirB = true → (lookupEntry cur e.1).isSome = true) →
      (walkSub L []).foldl (selStep (.dir ss)) (.dir cur)
        = .dir (cur.map fun d =>
            match lookupEntry L d.1 with
            | some (.dir ss2) => (d.1, mergeSel (.dir ss2) d.2)
            | some (.file _) => d
            | none => d) := by
  intro L
  induction L with
  | nil =>
    intro cur _ _ _ _
    show FSTree.dir cur = _
    rw [show (cur.map fun d =>
        match lookupEntry ([] : List (String × FSTree)) d.1 with
        | some (.dir ss2) => (d.1, mergeSel (.dir ss2) d.2)
        | some (.file _) => d
        | none => d) = cur.map id from List.map_congr_left (fun d _ => rfl),
      List.map_id]
  | cons e L ih =>
    intro cur hL hndL hndC hpres
    obtain ⟨n, t⟩ := e
    obtain ⟨hndL', hneL⟩ := nodupKeys_cons_head n t L hndL
    have hLn : lookupEntry L n = none := (lookupEntry_none_iff L n).mpr hneL
    cases t with
    | file c2 =>
      have hskip : walkSub ((n, FSTree.file c2) :: L) [] = walkSub L [] := by
        show [] ++ walkSub L [] = walkSub L []
        exact List.nil_append _
      rw [hskip, ih cur (fun x hx => hL x (List.mem_cons_of_mem _ hx)) hndL' hndC
        (fun x hx hxd => hpres x (List.mem_cons_of_mem _ hx) hxd)]
      congr 1
      apply List.map_congr_left
      intro d _
      by_cases hd : n = d.1
      · have h1 : lookupEntry L d.1 = none := hd ▸ hLn
        have h2 : lookupEntry ((n, FSTree.file c2) :: L) d.1 = some (.file c2) := by
          simp [lookupEntry, hd]
        rw [h1, h2]
      · have h2 : lookupEntry ((n, FSTree.file c2) :: L) d.1 = lookupEntry L d.1 := by
          simp [lookupEntry, hd]
        rw [h2]
    | dir es2 =>
      have hsplit : walkSub ((n, FSTree.dir es2) :: L) []
          = getAllFilePaths (.dir es2) ([] ++ [n]) ++ walkSub L [] := rfl
      rw [hsplit, List.foldl_append]
      rw [getAllFilePaths_shift (.dir es2) ([] ++ [n])]
      rw [show ((getAllFilePaths (.dir es2) []).map (([] ++ [n]) ++ ·))
          = (getAllFilePaths (.dir es2) []).map (n :: ·)
          from List.map_congr_left (fun q _ => rfl)]
      have hsome : lookupEntry ss n = some (.dir es2) := hL (n, .dir es2) (by simp)
      have hpn : (lookupEntry cur n).isSome = true := hpres (n, .dir es2) (by simp) rfl
      obtain ⟨dt, hdt⟩ : ∃ dt, lookupEntry cur n = some dt := by
        cases hc : lookupEntry cur n with
        | none => rw [hc] at hpn; simp at hpn
        | some dt => exact ⟨dt, rfl⟩
      rw [segment_fold (.dir ss) (.dir es2) n (getAllFilePaths (.dir es2) [])
        (fun q hq => walk_ne_nil _ q hq)
        (fun q _ => find?_cons_some ss n q (.dir es2) hsome)
        cur dt hdt]
      rw [show (getAllFilePaths (.dir es2) []).foldl (selStep (.dir es2)) dt
          = mergeSel (.dir es2) dt from rfl]
      rw [ih (updateFirst cur n (mergeSel (.dir es2) dt))
        (fun x hx => hL x (List.mem_cons_of_mem _ hx)) hndL'
        (by rw [nodupKeys_updateFirst]; exact hndC)
        (fun x hx hxd => by
          rw [lookupEntry_updateFirst_ne cur n x.1 _ (hneL x hx)]
          exact hpres x (List.mem_cons_of_mem _ hx) hxd)]
      congr 1
      refine map_updateFirst_switch n (mergeSel (.dir es2) dt) dt _ _ ?_ ?_ ?_
        cur hndC hdt
      · show (match lookupEntry L n with
          | some (.dir ss2) => (n, mergeSel (.dir ss2) (mergeSel (.dir es2) dt))
          | some (.file _) => (n, mergeSel (.dir es2) dt)
          | none => (n, mergeSel (.dir es2) dt)) = (n, mergeSel (.dir es2) dt)
        rw [hLn]
      · show (match lookupEntry ((n, FSTree.dir es2) :: L) n with
          | some (.dir ss2) => (n, mergeSel (.dir ss2) dt)
          | some (.file _) => (n, dt)
          | none => (n, dt)) = (n, mergeSel (.dir es2) dt)
        rw [show lookupEntry ((n, FSTree.dir es2) :: L) n = some (.dir es2)
            from by simp [lookupEntry]]
      · intro d hd
        have h2 : lookupEntry ((n, FSTree.dir es2) :: L) d.1 = lookupEntry L d.1 := by
          have : ¬(n = d.1) := fun hh => hd hh.symm
          simp [lookupEntry, this]
        show (match lookupEntry L d.1 with
          | some (.dir ss2) => (d.1, mergeSel (.dir ss2) d.2)
          | some (.file _) => d
          | none => d)
          = (match lookupEntry ((n, FSTree.dir es2) :: L) d.1 with
          | some (.dir ss2) => (d.1, mergeSel (.dir ss2) d.2)
          | some (.file _) => d
          | none => d)
        rw [h2]

theorem mergeDen_file_src (c : String) (d : FSTree) : mergeDen (.file c) d = d := by
  cases d <;> rfl

theorem lookupEntry_mem (es : List (String × FSTree)) (n : String) (t : FSTree)
    (h : lookupEntry es n = some t) : (n, t) ∈ es := by
  induction es with
  | nil => simp [lookupEntry] at h
  | cons d rest ih =>
    obtain ⟨m, u⟩ := d
    by_cases hm : m = n
    · subst hm
      simp only [lookupEntry, if_pos rfl] at h
      injection h with h2
      subst h2
      simp
    · simp only [lookupEntry, if_neg hm] at h
      exact List.mem_cons_of_mem _ (ih h)

theorem lookup_isSome_of_mem (es : List (String × FSTree)) (e : String × FSTree)
    (he : e ∈ es) : (lookupEntry es e.1).isSome = true := by
  induction es with
  | nil => simp at he
  | cons d rest ih =>
    obtain ⟨m, u⟩ := d
    by_cases hm : m = e.1
    · simp [lookupEntry, hm]
    · simp only [lookupEntry, if_neg hm]
      rcases List.mem_cons.mp he with heq | ht
      · exact absurd (congrArg Prod.fst heq).symm hm
      · exact ih ht

theorem mergeList_cons (ss : List (String × FSTree)) (n : String) (dt : FSTree)
    (rest : List (String × FSTree)) :
    mergeList ss ((n, dt) :: rest)
      = (n, match lookupEntry ss n with
            | some st => mergeDen st dt
            | none => dt) :: mergeList ss rest := rfl

theorem mergeList_self_of (ss : List (String × FSTree)) :
    ∀ ds : List (String × FSTree),
      (∀ e ∈ ds, lookupEntry ss e.1 = some e.2 ∧ mergeDen e.2 e.2 = e.2) →
      mergeList ss ds = ds := by
  intro ds
  induction ds with
  | nil => intro _; rfl
  | cons e rest ih =>
    intro h
    obtain ⟨n, dt⟩ := e
    obtain ⟨hl, hm⟩ := h (n, dt) (by simp)
    rw [mergeList_cons, hl]
    dsimp only
    rw [hm, ih (fun x hx => h x (List.mem_cons_of_mem _ hx))]

theorem wfB_dir (es : List (String × FSTree)) :
    (FSTree.dir es).wfB = (nodupKeys es && wfList es) := rfl

theorem filter_lookup_self_nil (ss : List (String × FSTree))
    (p : String × FSTree → Bool) :
    (ss.filter p).filter (fun e => (lookupEntry ss e.1).isNone) = [] := by
  rw [List.filter_eq_nil_iff]
  intro e he
  have hm : e ∈ ss := (List.mem_filter.mp he).1
  have hs := lookup_isSome_of_mem ss e hm
  cases hc : lookupEntry ss e.1 with
  | none => rw [hc] at hs; simp at hs
  | some v => simp [hc]

theorem mergeDen_self_aux : ∀ (k : Nat) (t : FSTree), sizeOf t ≤ k →
    t.wfB = true → mergeDen t t = t := by
  intro k
  induction k with
  | zero =>
    intro t ht
    exfalso
    cases t with
    | file c => simp only [FSTree.file.sizeOf_spec] at ht; omega
    | dir es => simp only [FSTree.dir.sizeOf_spec] at ht; omega
  | succ k ih =>
    intro t ht hwf
    cases t with
    | file c => rfl
    | dir ss =>
      rw [wfB_dir, Bool.and_eq_true] at hwf
      obtain ⟨hnd, hwl⟩ := hwf
      rw [show mergeDen (.dir ss) (.dir ss) = .dir (mergeList ss ss
          ++ (ss.filter fun e => e.2.isDirB).filter
              (fun e => (lookupEntry ss e.1).isNone)
          ++ (ss.filter fun e => !e.2.isDirB).filter
              (fun e => (lookupEntry ss e.1).isNone)) from rfl]
      rw [filter_lookup_self_nil ss, filter_lookup_self_nil ss]
      rw [mergeList_self_of ss ss (fun e he =>
        ⟨nodupKeys_lookup ss e.1 e.2 hnd he,
         ih e.2 (by
           have hlt := sizeOf_snd_lt_dir ss e he
           simp only [FSTree.dir.sizeOf_spec] at ht hlt
           omega) (wfList_mem ss e hwl he)⟩)]
      simp

theorem mergeDen_self (t : FSTree) (hwf : t.wfB = true) : mergeDen t t = t :=
  mergeDen_self_aux (sizeOf t) t le_rfl hwf

theorem mergeList_eq_map (ss : List (String × FSTree))
    (hsel : ∀ (n : String) (ss2 : List (String × FSTree)),
      lookupEntry ss n = some (.dir ss2) → ∀ dv : FSTree, dv.wfB = true →
        mergeSel (.dir ss2) dv = mergeDen (.dir ss2) dv) :
    ∀ ds : List (String × FSTree), (∀ e ∈ ds, e.2.wfB = true) →
      ds.map (fun d => match lookupEntry ss d.1 with
        | some (.dir ss2) => (d.1, mergeSel (.dir ss2) d.2)
        | some (.file _) => d
        | none => d) = mergeList ss ds := by
  intro ds
  induction ds with
  | nil => intro _; rfl
  | cons e rest ih =>
    intro hwf
    obtain ⟨n, dv⟩ := e
    rw [List.map_cons, mergeList_cons,
      ih (fun x hx => hwf x (List.mem_cons_of_mem _ hx))]
    congr 1
    show (match lookupEntry ss n with
      | some (.dir ss2) => (n, mergeSel (.dir ss2) dv)
      | some (.file _) => (n, dv)
      | none => (n, dv))
      = (n, match lookupEntry ss n with
        | some st => mergeDen st dv
        | none => dv)
    cases hls : lookupEntry ss n with
    | none => rfl
    | some st =>
      cases st with
      | file c2 =>
        dsimp only
        rw [mergeDen_file_src]
      | dir ss2 =>
        dsimp only
        rw [hsel n ss2 hls dv (hwf (n, dv) (by simp))]

theorem nodupKeys_append (a b : List (String × FSTree))
    (hna : nodupKeys a = true) (hnb : nodupKeys b = true)
    (hd : ∀ x ∈ a, ∀ y ∈ b, x.1 ≠ y.1) :
    nodupKeys (a ++ b) = true := by
  rw [nodupKeys_nodup, List.map_append, List.nodup_append]
  refine ⟨(nodupKeys_nodup a).mp hna, (nodupKeys_nodup b).mp hnb, ?_⟩
  intro k hka hkb
  obtain ⟨x, hx, hxk⟩ := List.mem_map.mp hka
  obtain ⟨y, hy, hyk⟩ := List.mem_map.mp hkb
  exact hd x hx y hy (by rw [hxk, hyk])

theorem entries_eq_of_same_key (ss : List (String × FSTree))
    (hnd : nodupKeys ss = true) (x y : String × FSTree)
    (hx : x ∈ ss) (hy : y ∈ ss) (hk : x.1 = y.1) : x.2 = y.2 := by
  have h1 : lookupEntry ss x.1 = some x.2 := nodupKeys_lookup ss x.1 x.2 hnd hx
  have h2 : lookupEntry ss y.1 = some y.2 := nodupKeys_lookup ss y.1 y.2 hnd hy
  rw [hk, h2] at h1
  injection h1 with h3
  exact h3.symm

theorem mergeSel_eq_mergeDen_aux : ∀ (k : Nat) (s : FSTree), sizeOf s ≤ k →
    s.wfB = true → ∀ d : FSTree, d.wfB = true → mergeSel s d = mergeDen s d := by
  intro k
  induction k with
  | zero =>
    intro s hsz
    exfalso
    cases s with
    | file c => simp only [FSTree.file.sizeOf_spec] at hsz; omega
    | dir es => simp only [FSTree.dir.sizeOf_spec] at hsz; omega
  | succ k ih =>
    intro s hsz hwfs d hwfd
    cases s with
    | file c =>
      rw [show mergeSel (.file c) d = d from rfl, mergeDen_file_src]
    | dir ss =>
      rw [wfB_dir, Bool.and_eq_true] at hwfs
      obtain ⟨hnd, hwl⟩ := hwfs
      have hsel : ∀ (n : String) (ss2 : List (String × FSTree)),
          lookupEntry ss n = some (.dir ss2) → ∀ dv : FSTree, dv.wfB = true →
          mergeSel (.dir ss2) dv = mergeDen (.dir ss2) dv := by
        intro n ss2 hls dv hdv
        have hmem := lookupEntry_mem ss n _ hls
        have hsz2 : sizeOf (FSTree.dir ss2) < sizeOf (FSTree.dir ss) := by
          simpa using sizeOf_snd_lt_dir ss (n, .dir ss2) hmem
        refine ih (.dir ss2) ?_ (wfList_mem ss (n, .dir ss2) hwl hmem) dv hdv
        omega
      cases d with
      | file c => exact mergeSel_file_root ss c hnd
      | dir ds =>
        rw [wfB_dir, Bool.and_eq_true] at hwfd
        obtain ⟨hndD, hwlD⟩ := hwfd
        have hLall : ∀ e ∈ ss, lookupEntry ss e.1 = some e.2 :=
          fun e he => nodupKeys_lookup ss e.1 e.2 hnd he
        have hndA : nodupKeys (ss.filter fun e => e.2.isDirB) = true :=
          nodupKeys_sublist ss _ (List.filter_sublist _) hnd
        have hndB : nodupKeys (ss.filter fun e => !e.2.isDirB) = true :=
          nodupKeys_sublist ss _ (List.filter_sublist _) hnd
        have hndmD : nodupKeys ((ss.filter fun e => e.2.isDirB).filter
            fun e => (lookupEntry ds e.1).isNone) = true :=
          nodupKeys_sublist _ _ (List.filter_sublist _) hndA
        have hndmF : nodupKeys ((ss.filter fun e => !e.2.isDirB).filter
            fun e => (lookupEntry ds e.1).isNone) = true :=
          nodupKeys_sublist _ _ (List.filter_sublist _) hndB
        -- a filtered-in entry has no counterpart in the destination listing
        have hmDnone : ∀ e ∈ (ss.filter fun e => e.2.isDirB).filter
            (fun e => (lookupEntry ds e.1).isNone), lookupEntry ds e.1 = none := by
          intro e he
          have hp := (List.mem_filter.mp he).2
          cases hc : lookupEntry ds e.1 with
          | none => rfl
          | some v => rw [hc] at hp; simp at hp
        have hmFnone : ∀ e ∈ (ss.filter fun e => !e.2.isDirB).filter
            (fun e => (lookupEntry ds e.1).isNone), lookupEntry ds e.1 = none := by
          intro e he
          have hp := (List.mem_filter.mp he).2
          cases hc : lookupEntry ds e.1 with
          | none => rfl
          | some v => rw [hc] at hp; simp at hp
        have hdisj1 : ∀ x ∈ ds, ∀ y ∈ (ss.filter fun e => e.2.isDirB).filter
            (fun e => (lookupEntry ds e.1).isNone), x.1 ≠ y.1 := by
          intro x hx y hy hxy
          have h1 := lookup_isSome_of_mem ds x hx
          have h2 := hmDnone y hy
          rw [hxy, h2] at h1
          simp at h1
        have hndCur1 : nodupKeys (ds ++ (ss.filter fun e => e.2.isDirB).filter
            fun e => (lookupEntry ds e.1).isNone) = true :=
          nodupKeys_append _ _ hndD hndmD hdisj1
        have hdisj2 : ∀ x ∈ (ds ++ (ss.filter fun e => e.2.isDirB).filter
              fun e => (lookupEntry ds e.1).isNone),
            ∀ y ∈ (ss.filter fun e => !e.2.isDirB).filter
              (fun e => (lookupEntry ds e.1).isNone), x.1 ≠ y.1 := by
          intro x hx y hy hxy
          rcases List.mem_append.mp hx with hx1 | hx2
          · have h1 := lookup_isSome_of_mem ds x hx1
            have h2 := hmFnone y hy
            rw [hxy, h2] at h1
            simp at h1
          · have hxS : x ∈ ss := (List.mem_filter.mp (List.mem_filter.mp hx2).1).1
            have hxD : x.2.isDirB = true :=
              (List.mem_filter.mp (List.mem_filter.mp hx2).1).2
            have hyS : y ∈ ss := (List.mem_filter.mp (List.mem_filter.mp hy).1).1
            have hyF := (List.mem_filter.mp (List.mem_filter.mp hy).1).2
            have heq := entries_eq_of_same_key ss hnd x y hxS hyS hxy
            rw [heq] at hxD
            rw [hxD] at hyF
            simp at hyF
        have hndCur : nodupKeys ((ds ++ (ss.filter fun e => e.2.isDirB).filter
              (fun e => (lookupEntry ds e.1).isNone))
            ++ (ss.filter fun e => !e.2.isDirB).filter
              (fun e => (lookupEntry ds e.1).isNone)) = true :=
          nodupKeys_append _ _ hndCur1 hndmF hdisj2
        have hpres : ∀ e ∈ ss, e.2.isDirB = true →
            (lookupEntry ((ds ++ (ss.filter fun e => e.2.isDirB).filter
                (fun e => (lookupEntry ds e.1).isNone))
              ++ (ss.filter fun e => !e.2.isDirB).filter
                (fun e => (lookupEntry ds e.1).isNone)) e.1).isSome = true := by
          intro e he hdir
          cases hds : lookupEntry ds e.1 with
          | some dv =>
            rw [lookupEntry_append_left _ _ e.1 dv
              (lookupEntry_append_left _ _ e.1 dv hds)]
            rfl
          | none =>
            have hemD : e ∈ (ss.filter fun e => e.2.isDirB).filter
                (fun e => (lookupEntry ds e.1).isNone) :=
              List.mem_filter.mpr ⟨List.mem_filter.mpr ⟨he, hdir⟩, by rw [hds]; rfl⟩
            have hld : lookupEntry ((ss.filter fun e => e.2.isDirB).filter
                (fun e => (lookupEntry ds e.1).isNone)) e.1 = some e.2 :=
              nodupKeys_lookup _ e.1 e.2 hndmD hemD
            rw [lookupEntry_append_left _ _ e.1 e.2
              ((lookupEntry_append_right ds _ e.1 hds).trans hld)]
            rfl
        rw [show mergeSel (.dir ss) (.dir ds)
            = (((ss.filter fun e => e.2.isDirB).map (fun e => [e.1])
              ++ (ss.filter fun e => !e.2.isDirB).map (fun e => [e.1]))
              ++ walkSub ss []).foldl (selStep (.dir ss)) (.dir ds) from rfl]
        rw [List.foldl_append, List.foldl_append]
        rw [phase_append ss (ss.filter fun e => e.2.isDirB) ds
          (fun e he => nodupKeys_lookup ss e.1 e.2 hnd (List.mem_filter.mp he).1)
          hndA]
        rw [phase_append ss (ss.filter fun e => !e.2.isDirB)
          (ds ++ (ss.filter fun e => e.2.isDirB).filter
            fun e => (lookupEntry ds e.1).isNone)
          (fun e he => nodupKeys_lookup ss e.1 e.2 hnd (List.mem_filter.mp he).1)
          hndB]
        have hfixB : ((ss.filter fun e => !e.2.isDirB).filter
            (fun e => (lookupEntry (ds ++ (ss.filter fun e => e.2.isDirB).filter
              (fun e => (lookupEntry ds e.1).isNone)) e.1).isNone))
            = (ss.filter fun e => !e.2.isDirB).filter
              (fun e => (lookupEntry ds e.1).isNone) := by
          apply List.filter_congr
          intro e he
          have heS : e ∈ ss := (List.mem_filter.mp he).1
          have heF := (List.mem_filter.mp he).2
          have hmD0 : lookupEntry ((ss.filter fun e => e.2.isDirB).filter
              (fun e => (lookupEntry ds e.1).isNone)) e.1 = none := by
            rw [lookupEntry_none_iff]
            intro x hx hxe
            have hxS : x ∈ ss := (List.mem_filter.mp (List.mem_filter.mp hx).1).1
            have hxD : x.2.isDirB = true :=
              (List.mem_filter.mp (List.mem_filter.mp hx).1).2
            have heq := entries_eq_of_same_key ss hnd x e hxS heS hxe
            rw [heq] at hxD
            rw [hxD] at heF
            simp at heF
          cases hds : lookupEntry ds e.1 with
          | some dv =>
            have h1 : lookupEntry (ds ++ (ss.filter fun e => e.2.isDirB).filter
                (fun e => (lookupEntry ds e.1).isNone)) e.1 = some dv :=
              lookupEntry_append_left _ _ _ _ hds
            rw [h1]
          | none =>
            have h1 : lookupEntry (ds ++ (ss.filter fun e => e.2.isDirB).filter
                (fun e => (lookupEntry ds e.1).isNone)) e.1 = none :=
              (lookupEntry_append_right ds _ e.1 hds).trans hmD0
            rw [h1]
        rw [hfixB]
        rw [phase3_fold ss ss _ hLall hnd hndCur hpres]
        rw [show mergeDen (.dir ss) (.dir ds) = .dir (mergeList ss ds
            ++ (ss.filter fun e => e.2.isDirB).filter
                (fun e => (lookupEntry ds e.1).isNone)
            ++ (ss.filter fun e => !e.2.isDirB).filter
                (fun e => (lookupEntry ds e.1).isNone)) from rfl]
        congr 1
        rw [List.map_append, List.map_append]
        congr 1
        congr 1
        · exact mergeList_eq_map ss hsel ds (fun e he => wfList_mem ds e hwlD he)
        · rw [show ((ss.filter fun e => e.2.isDirB).filter
              (fun e => (lookupEntry ds e.1).isNone)).map (fun d =>
              match lookupEntry ss d.1 with
              | some (.dir ss2) => (d.1, mergeSel (.dir ss2) d.2)
              | some (.file _) => d
              | none => d)
            = ((ss.filter fun e => e.2.isDirB).filter
              (fun e => (lookupEntry ds e.1).isNone)).map id from
            List.map_congr_left (fun e he => by
              have heS : e ∈ ss := (List.mem_filter.mp (List.mem_filter.mp he).1).1
              have heD : e.2.isDirB = true :=
                (List.mem_filter.mp (List.mem_filter.mp he).1).2
              obtain ⟨n, t⟩ := e
              cases t with
              | file c2 => simp [FSTree.isDirB] at heD
              | dir es2 =>
                have hls : lookupEntry ss n = some (.dir es2) :=
                  nodupKeys_lookup ss n _ hnd heS
                have hwfe : (FSTree.dir es2).wfB = true :=
                  wfList_mem ss (n, .dir es2) hwl heS
                show (match lookupEntry ss n with
                  | some (.dir ss2) => (n, mergeSel (.dir ss2) (.dir es2))
                  | some (.file _) => (n, FSTree.dir es2)
                  | none => (n, FSTree.dir es2)) = id (n, FSTree.dir es2)
                rw [hls]
                dsimp only
                rw [hsel n es2 hls (.dir es2) hwfe, mergeDen_self _ hwfe]
                rfl), List.map_id]
        · rw [show ((ss.filter fun e => !e.2.isDirB).filter
              (fun e => (lookupEntry ds e.1).isNone)).map (fun d =>
              match lookupEntry ss d.1 with
              | some (.dir ss2) => (d.1, mergeSel (.dir ss2) d.2)
              | some (.file _) => d
              | none => d)
            = ((ss.filter fun e => !e.2.isDirB).filter
              (fun e => (lookupEntry ds e.1).isNone)).map id from
            List.map_congr_left (fun e he => by
              have heS : e ∈ ss := (List.mem_filter.mp (List.mem_filter.mp he).1).1
              have heF := (List.mem_filter.mp (List.mem_filter.mp he).1).2
              obtain ⟨n, t⟩ := e
              cases t with
              | dir es2 => simp [FSTree.isDirB] at heF
              | file c2 =>
                have hls : lookupEntry ss n = some (.file c2) :=
                  nodupKeys_lookup ss n _ hnd heS
                show (match lookupEntry ss n with
                  | some (.dir ss2) => (n, mergeSel (.dir ss2) (.file c2))
                  | some (.file _) => (n, FSTree.file c2)
                  | none => (n, FSTree.file c2)) = id (n, FSTree.file c2)
                rw [hls]
                rfl), List.map_id]

theorem mergeSel_eq_mergeDen (s d : FSTree) (hs : s.wfB = true) (hd : d.wfB = true) :
    mergeSel s d = mergeDen s d :=
  mergeSel_eq_mergeDen_aux (sizeOf s) s le_rfl hs d hd

theorem mem_keys_isSome (es : List (String × FSTree)) (a : String)
    (ha : a ∈ es.map Prod.fst) : (lookupEntry es a).isSome = true := by
  obtain ⟨x, hx, hxa⟩ := List.mem_map.mp ha
  rw [← hxa]
  exact lookup_isSome_of_mem es x hx

theorem mergeList_append (ss a b : List (String × FSTree)) :
    mergeList ss (a ++ b) = mergeList ss a ++ mergeList ss b := by
  induction a with
  | nil => rfl
  | cons e rest ih =>
    obtain ⟨n, dt⟩ := e
    rw [List.cons_append, mergeList_cons, mergeList_cons, ih, List.cons_append]

theorem mergeList_keys (ss ds : List (String × FSTree)) :
    (mergeList ss ds).map Prod.fst = ds.map Prod.fst := by
  induction ds with
  | nil => rfl
  | cons e rest ih =>
    obtain ⟨n, dt⟩ := e
    rw [mergeList_cons, List.map_cons, List.map_cons, ih]

theorem mergeList_lookup_none (ss ds : List (String × FSTree)) (n : String)
    (h : lookupEntry ds n = none) : lookupEntry (mergeList ss ds) n = none := by
  induction ds with
  | nil => rfl
  | cons e rest ih =>
    obtain ⟨m, dt⟩ := e
    by_cases hm : m = n
    · simp [lookupEntry, hm] at h
    · rw [mergeList_cons]
      simp only [lookupEntry, if_neg hm] at h ⊢
      exact ih h

theorem mergeList_lookup_some (ss ds : List (String × FSTree)) (n : String)
    (dv : FSTree) (h : lookupEntry ds n = some dv) :
    lookupEntry (mergeList ss ds) n
      = some (match lookupEntry ss n with
        | some st => mergeDen st dv
        | none => dv) := by
  induction ds with
  | nil => simp [lookupEntry] at h
  | cons e rest ih =>
    obtain ⟨m, dt⟩ := e
    rw [mergeList_cons]
    by_cases hm : m = n
    · subst hm
      simp only [lookupEntry, if_pos rfl] at h ⊢
      injection h with h2
      subst h2
      rfl
    · simp only [lookupEntry, if_neg hm] at h ⊢
      exact ih h

theorem wfList_append (a b : List (String × FSTree)) :
    wfList (a ++ b) = (wfList a && wfList b) := by
  induction a with
  | nil => rfl
  | cons e rest ih =>
    obtain ⟨n, t⟩ := e
    rw [List.cons_append]
    rw [show wfList ((n, t) :: (rest ++ b)) = (t.wfB && wfList (rest ++ b)) from rfl]
    rw [show wfList ((n, t) :: rest) = (t.wfB && wfList rest) from rfl]
    rw [ih, Bool.and_assoc]

theorem wfList_of_parts (es : List (String × FSTree))
    (h : ∀ e ∈ es, e.2.wfB = true) : wfList es = true := by
  induction es with
  | nil => rfl
  | cons e rest ih =>
    obtain ⟨n, t⟩ := e
    rw [show wfList ((n, t) :: rest) = (t.wfB && wfList rest) from rfl,
      Bool.and_eq_true]
    exact ⟨h (n, t) (by simp), ih (fun x hx => h x (List.mem_cons_of_mem _ hx))⟩

theorem mergeDen_wf_aux : ∀ (k : Nat) (d : FSTree), sizeOf d ≤ k → ∀ s : FSTree,
    s.wfB = true → d.wfB = true → (mergeDen s d).wfB = true := by
  intro k
  induction k with
  | zero =>
    intro d hsz
    exfalso
    cases d with
    | file c => simp only [FSTree.file.sizeOf_spec] at hsz; omega
    | dir es => simp only [FSTree.dir.sizeOf_spec] at hsz; omega
  | succ k ih =>
    intro d hsz s hwfs hwfd
    cases d with
    | file c =>
      cases s with
      | file c' => exact hwfd
      | dir ss =>
        show (match lastFileOpt ss with
          | some c' => FSTree.file c'
          | none => FSTree.file c).wfB = true
        cases lastFileOpt ss <;> rfl
    | dir ds =>
      cases s with
      | file c => exact hwfd
      | dir ss =>
        rw [wfB_dir, Bool.and_eq_true] at hwfs hwfd
        obtain ⟨hndS, hwlS⟩ := hwfs
        obtain ⟨hndD, hwlD⟩ := hwfd
        rw [show mergeDen (.dir ss) (.dir ds) = .dir (mergeList ss ds
            ++ (ss.filter fun e => e.2.isDirB).filter
                (fun e => (lookupEntry ds e.1).isNone)
            ++ (ss.filter fun e => !e.2.isDirB).filter
                (fun e => (lookupEntry ds e.1).isNone)) from rfl]
        rw [wfB_dir, Bool.and_eq_true]
        have hndML : nodupKeys (mergeList ss ds) = true := by
          rw [nodupKeys_nodup, mergeList_keys]
          exact (nodupKeys_nodup ds).mp hndD
        have hndmD : nodupKeys ((ss.filter fun e => e.2.isDirB).filter
            fun e => (lookupEntry ds e.1).isNone) = true :=
          nodupKeys_sublist ss _
            ((List.filter_sublist _).trans (List.filter_sublist _)) hndS
        have hndmF : nodupKeys ((ss.filter fun e => !e.2.isDirB).filter
            fun e => (lookupEntry ds e.1).isNone) = true :=
          nodupKeys_sublist ss _
            ((List.filter_sublist _).trans (List.filter_sublist _)) hndS
        have hmDnone : ∀ e ∈ (ss.filter fun e => e.2.isDirB).filter
            (fun e => (lookupEntry ds e.1).isNone), lookupEntry ds e.1 = none := by
          intro e he
          have hp := (List.mem_filter.mp he).2
          cases hc : lookupEntry ds e.1 with
          | none => rfl
          | some v => rw [hc] at hp; simp at hp
        have hmFnone : ∀ e ∈ (ss.filter fun e => !e.2.isDirB).filter
            (fun e => (lookupEntry ds e.1).isNone), lookupEntry ds e.1 = none := by
          intro e he
          have hp := (List.mem_filter.mp he).2
          cases hc : lookupEntry ds e.1 with
          | none => rfl
          | some v => rw [hc] at hp; simp at hp
        have hdsKey : ∀ x ∈ mergeList ss ds, (lookupEntry ds x.1).isSome = true := by
          intro x hx
          apply mem_keys_isSome
          rw [← mergeList_keys ss ds]
          exact List.mem_map_of_mem Prod.fst hx
        have hdisj1 : ∀ x ∈ mergeList ss ds,
            ∀ y ∈ (ss.filter fun e => e.2.isDirB).filter
              (fun e => (lookupEntry ds e.1).isNone), x.1 ≠ y.1 := by
          intro x hx y hy hxy
          have h1 := hdsKey x hx
          rw [hxy, hmDnone y hy] at h1
          simp at h1
        have hdisj2 : ∀ x ∈ mergeList ss ds ++ (ss.filter fun e => e.2.isDirB).filter
              (fun e => (lookupEntry ds e.1).isNone),
            ∀ y ∈ (ss.filter fun e => !e.2.isDirB).filter
              (fun e => (lookupEntry ds e.1).isNone), x.1 ≠ y.1 := by
          intro x hx y hy hxy
          rcases List.mem_append.mp hx with hx1 | hx2
          · have h1 := hdsKey x hx1
            rw [hxy, hmFnone y hy] at h1
            simp at h1
          · have hxS : x ∈ ss := (List.mem_filter.mp (List.mem_filter.mp hx2).1).1
            have hxD : x.2.isDirB = true :=
              (List.mem_filter.mp (List.mem_filter.mp hx2).1).2
            have hyS : y ∈ ss := (List.mem_filter.mp (List.mem_filter.mp hy).1).1
            have hyF := (List.mem_filter.mp (List.mem_filter.mp hy).1).2
            have heq := entries_eq_of_same_key ss hndS x y hxS hyS hxy
            rw [heq] at hxD
            rw [hxD] at hyF
            simp at hyF
        constructor
        · exact nodupKeys_append _ _ (nodupKeys_append _ _ hndML hndmD hdisj1)
            hndmF hdisj2
        · rw [wfList_append, wfList_append, Bool.and_eq_true, Bool.and_eq_true]
          refine ⟨⟨?_, ?_⟩, ?_⟩
          · have haux : ∀ ds' : List (String × FSTree),
                (∀ e ∈ ds', e ∈ ds) → wfList (mergeList ss ds') = true := by
              intro ds'
              induction ds' with
              | nil => intro _; rfl
              | cons e rest ihl =>
                intro hsub
                obtain ⟨n, dv⟩ := e
                rw [mergeList_cons]
                have hdv_mem : (n, dv) ∈ ds := hsub (n, dv) (by simp)
                have hdvwf : dv.wfB = true := wfList_mem ds (n, dv) hwlD hdv_mem
                have hdvsz : sizeOf dv ≤ k := by
                  have h2 : sizeOf dv < sizeOf (FSTree.dir ds) := by
                    simpa using sizeOf_snd_lt_dir ds (n, dv) hdv_mem
                  omega
                have hrest := ihl (fun x hx => hsub x (List.mem_cons_of_mem _ hx))
                cases hls : lookupEntry ss n with
                | none =>
                  show wfList ((n, dv) :: mergeList ss rest) = true
                  rw [show wfList ((n, dv) :: mergeList ss rest)
                      = (dv.wfB && wfList (mergeList ss rest)) from rfl,
                    Bool.and_eq_true]
                  exact ⟨hdvwf, hrest⟩
                | some st =>
                  show wfList ((n, mergeDen st dv) :: mergeList ss rest) = true
                  have hst : st.wfB = true :=
                    wfList_mem ss (n, st) hwlS (lookupEntry_mem ss n st hls)
                  rw [show wfList ((n, mergeDen st dv) :: mergeList ss rest)
                      = ((mergeDen st dv).wfB && wfList (mergeList ss rest)) from rfl,
                    Bool.and_eq_true]
                  exact ⟨ih dv hdvsz st hst hdvwf, hrest⟩
            exact haux ds (fun e he => he)
          · exact wfList_sublist ss _
              ((List.filter_sublist _).trans (List.filter_sublist _)) hwlS
          · exact wfList_sublist ss _
              ((List.filter_sublist _).trans (List.filter_sublist _)) hwlS

theorem mergeDen_wf (s d : FSTree) (hs : s.wfB = true) (hd : d.wfB = true) :
    (mergeDen s d).wfB = true :=
  mergeDen_wf_aux (sizeOf d) d le_rfl s hs hd

theorem mergeList_twice_of (ss : List (String × FSTree)) :
    ∀ ds : List (String × FSTree),
      (∀ e ∈ ds, ∀ st : FSTree, lookupEntry ss e.1 = some st →
        mergeDen st (mergeDen st e.2) = mergeDen st e.2) →
      mergeList ss (mergeList ss ds) = mergeList ss ds := by
  intro ds
  induction ds with
  | nil => intro _; rfl
  | cons e rest ih =>
    intro h
    obtain ⟨n, dv⟩ := e
    rw [mergeList_cons]
    cases hls : lookupEntry ss n with
    | none =>
      show mergeList ss ((n, dv) :: mergeList ss rest)
        = (n, dv) :: mergeList ss rest
      rw [mergeList_cons, hls, ih (fun x hx => h x (List.mem_cons_of_mem _ hx))]
    | some st =>
      show mergeList ss ((n, mergeDen st dv) :: mergeList ss rest)
        = (n, mergeDen st dv) :: mergeList ss rest
      rw [mergeList_cons, hls, ih (fun x hx => h x (List.mem_cons_of_mem _ hx))]
      have hidem := h (n, dv) (by simp) st hls
      dsimp only
      rw [hidem]

theorem mergeDen_idem_aux : ∀ (k : Nat) (d : FSTree), sizeOf d ≤ k → ∀ s : FSTree,
    s.wfB = true → d.wfB = true → mergeDen s (mergeDen s d) = mergeDen s d := by
  intro k
  induction k with
  | zero =>
    intro d hsz
    exfalso
    cases d with
    | file c => simp only [FSTree.file.sizeOf_spec] at hsz; omega
    | dir es => simp only [FSTree.dir.sizeOf_spec] at hsz; omega
  | succ k ih =>
    intro d hsz s hwfs hwfd
    cases d with
    | file c =>
      cases s with
      | file c' => rfl
      | dir ss =>
        cases hlf : lastFileOpt ss with
        | some c' =>
          rw [show mergeDen (.dir ss) (.file c)
              = match lastFileOpt ss with
                | some c2 => FSTree.file c2
                | none => FSTree.file c from rfl, hlf]
          rw [show mergeDen (.dir ss) (.file c')
              = match lastFileOpt ss with
                | some c2 => FSTree.file c2
                | none => FSTree.file c' from rfl, hlf]
        | none =>
          rw [show mergeDen (.dir ss) (.file c)
              = match lastFileOpt ss with
                | some c2 => FSTree.file c2
                | none => FSTree.file c from rfl, hlf]
          rw [show mergeDen (.dir ss) (.file c)
              = match lastFileOpt ss with
                | some c2 => FSTree.file c2
                | none => FSTree.file c from rfl, hlf]
    | dir ds =>
      cases s with
      | file c => rw [mergeDen_file_src, mergeDen_file_src]
      | dir ss =>
        rw [wfB_dir, Bool.and_eq_true] at hwfs hwfd
        obtain ⟨hndS, hwlS⟩ := hwfs
        obtain ⟨hndD, hwlD⟩ := hwfd
        have hmDnone : ∀ e ∈ (ss.filter fun e => e.2.isDirB).filter
            (fun e => (lookupEntry ds e.1).isNone), lookupEntry ds e.1 = none := by
          intro e he
          have hp := (List.mem_filter.mp he).2
          cases hc : lookupEntry ds e.1 with
          | none => rfl
          | some v => rw [hc] at hp; simp at hp
        have hndmD : nodupKeys ((ss.filter fun e => e.2.isDirB).filter
            fun e => (lookupEntry ds e.1).isNone) = true :=
          nodupKeys_sublist ss _
            ((List.filter_sublist _).trans (List.filter_sublist _)) hndS
        have hndmF : nodupKeys ((ss.filter fun e => !e.2.isDirB).filter
            fun e => (lookupEntry ds e.1).isNone) = true :=
          nodupKeys_sublist ss _
            ((List.filter_sublist _).trans (List.filter_sublist _)) hndS
        rw [show mergeDen (.dir ss) (.dir ds) = .dir (mergeList ss ds
            ++ (ss.filter fun e => e.2.isDirB).filter
                (fun e => (lookupEntry ds e.1).isNone)
            ++ (ss.filter fun e => !e.2.isDirB).filter
                (fun e => (lookupEntry ds e.1).isNone)) from rfl]
        -- the big entry list of the first merge result
        have hlookBig : ∀ e ∈ ss, (lookupEntry (mergeList ss ds
            ++ (ss.filter fun e => e.2.isDirB).filter
                (fun e => (lookupEntry ds e.1).isNone)
            ++ (ss.filter fun e => !e.2.isDirB).filter
                (fun e => (lookupEntry ds e.1).isNone)) e.1).isSome = true := by
          intro e he
          cases hds : lookupEntry ds e.1 with
          | some dv =>
            have h1 := mergeList_lookup_some ss ds e.1 dv hds
            rw [lookupEntry_append_left _ _ e.1 _
              (lookupEntry_append_left _ _ e.1 _ h1)]
            rfl
          | none =>
            have h1 : lookupEntry (mergeList ss ds) e.1 = none :=
              mergeList_lookup_none ss ds e.1 hds
            by_cases hdir : e.2.isDirB = true
            · have hemD : e ∈ (ss.filter fun e => e.2.isDirB).filter
                  (fun e => (lookupEntry ds e.1).isNone) :=
                List.mem_filter.mpr ⟨List.mem_filter.mpr ⟨he, hdir⟩, by rw [hds]; rfl⟩
              have hld := nodupKeys_lookup _ e.1 e.2 hndmD hemD
              rw [lookupEntry_append_left _ _ e.1 e.2
                ((lookupEntry_append_right _ _ e.1 h1).trans hld)]
              rfl
            · have hfile : (!e.2.isDirB) = true := by
                cases hd2 : e.2.isDirB with
                | true => exact absurd hd2 hdir
                | false => rfl
              have hemF : e ∈ (ss.filter fun e => !e.2.isDirB).filter
                  (fun e => (lookupEntry ds e.1).isNone) :=
                List.mem_filter.mpr ⟨List.mem_filter.mpr ⟨he, hfile⟩, by rw [hds]; rfl⟩
              have hld := nodupKeys_lookup _ e.1 e.2 hndmF hemF
              have h2 : lookupEntry ((ss.filter fun e => e.2.isDirB).filter
                  (fun e => (lookupEntry ds e.1).isNone)) e.1 = none := by
                rw [lookupEntry_none_iff]
                intro x hx hxe
                have hxS : x ∈ ss := (List.mem_filter.mp (List.mem_filter.mp hx).1).1
                have hxD : x.2.isDirB = true :=
                  (List.mem_filter.mp (List.mem_filter.mp hx).1).2
                have heq := entries_eq_of_same_key ss hndS x e hxS he hxe
                rw [heq] at hxD
                exact absurd hxD hdir
              rw [lookupEntry_append_right _ _ e.1
                ((lookupEntry_append_right _ _ e.1 h1).trans h2), hld]
              rfl
        rw [show mergeDen (.dir ss) (.dir (mergeList ss ds
            ++ (ss.filter fun e => e.2.isDirB).filter
                (fun e => (lookupEntry ds e.1).isNone)
            ++ (ss.filter fun e => !e.2.isDirB).filter
                (fun e => (lookupEntry ds e.1).isNone)))
          = .dir (mergeList ss (mergeList ss ds
              ++ (ss.filter fun e => e.2.isDirB).filter
                  (fun e => (lookupEntry ds e.1).isNone)
              ++ (ss.filter fun e => !e.2.isDirB).filter
                  (fun e => (lookupEntry ds e.1).isNone))
            ++ (ss.filter fun e => e.2.isDirB).filter
                (fun e => (lookupEntry (mergeList ss ds
                  ++ (ss.filter fun e => e.2.isDirB).filter
                      (fun e => (lookupEntry ds e.1).isNone)
                  ++ (ss.filter fun e => !e.2.isDirB).filter
                      (fun e => (lookupEntry ds e.1).isNone)) e.1).isNone)
            ++ (ss.filter fun e => !e.2.isDirB).filter
                (fun e => (lookupEntry (mergeList ss ds
                  ++ (ss.filter fun e => e.2.isDirB).filter
                      (fun e => (lookupEntry ds e.1).isNone)
                  ++ (ss.filter fun e => !e.2.isDirB).filter
                      (fun e => (lookupEntry ds e.1).isNone)) e.1).isNone))
          from rfl]
        have hf1 : (ss.filter fun e => e.2.isDirB).filter
            (fun e => (lookupEntry (mergeList ss ds
              ++ (ss.filter fun e => e.2.isDirB).filter
                  (fun e => (lookupEntry ds e.1).isNone)
              ++ (ss.filter fun e => !e.2.isDirB).filter
                  (fun e => (lookupEntry ds e.1).isNone)) e.1).isNone) = [] := by
          rw [List.filter_eq_nil_iff]
          intro e he
          have heS : e ∈ ss := (List.mem_filter.mp he).1
          have hs := hlookBig e heS
          cases hc : lookupEntry (mergeList ss ds
              ++ (ss.filter fun e => e.2.isDirB).filter
                  (fun e => (lookupEntry ds e.1).isNone)
              ++ (ss.filter fun e => !e.2.isDirB).filter
                  (fun e => (lookupEntry ds e.1).isNone)) e.1 with
          | none => rw [hc] at hs; simp at hs
          | some v => simp [hc]
        have hf2 : (ss.filter fun e => !e.2.isDirB).filter
            (fun e => (lookupEntry (mergeList ss ds
              ++ (ss.filter fun e => e.2.isDirB).filter
                  (fun e => (lookupEntry ds e.1).isNone)
              ++ (ss.filter fun e => !e.2.isDirB).filter
                  (fun e => (lookupEntry ds e.1).isNone)) e.1).isNone) = [] := by
          rw [List.filter_eq_nil_iff]
          intro e he
          have heS : e ∈ ss := (List.mem_filter.mp he).1
          have hs := hlookBig e heS
          cases hc : lookupEntry (mergeList ss ds
              ++ (ss.filter fun e => e.2.isDirB).filter
                  (fun e => (lookupEntry ds e.1).isNone)
              ++ (ss.filter fun e => !e.2.isDirB).filter
                  (fun e => (lookupEntry ds e.1).isNone)) e.1 with
          | none => rw [hc] at hs; simp at hs
          | some v => simp [hc]
        rw [hf1, hf2, List.append_nil, List.append_nil]
        rw [mergeList_append, mergeList_append]
        congr 1
        congr 1
        congr 1
        · -- mergeList ss (mergeList ss ds) = mergeList ss ds
          apply mergeList_twice_of
          intro e he st hls
          have hewf : e.2.wfB = true := wfList_mem ds e hwlD he
          have hstwf : st.wfB = true :=
            wfList_mem ss (e.1, st) hwlS (lookupEntry_mem ss e.1 st hls)
          have hesz : sizeOf e.2 ≤ k := by
            have h2 : sizeOf e.2 < sizeOf (FSTree.dir ds) :=
              sizeOf_snd_lt_dir ds e he
            simp only [FSTree.dir.sizeOf_spec] at h2 hsz
            omega
          exact ih e.2 hesz st hstwf hewf
        · -- mergeList ss mD = mD
          apply mergeList_self_of
          intro e he
          have heS : e ∈ ss := (List.mem_filter.mp (List.mem_filter.mp he).1).1
          refine ⟨nodupKeys_lookup ss e.1 e.2 hndS heS, ?_⟩
          exact mergeDen_self e.2 (wfList_mem ss e hwlS heS)
        · -- mergeList ss mF = mF
          apply mergeList_self_of
          intro e he
          have heS : e ∈ ss := (List.mem_filter.mp (List.mem_filter.mp he).1).1
          refine ⟨nodupKeys_lookup ss e.1 e.2 hndS heS, ?_⟩
          exact mergeDen_self e.2 (wfList_mem ss e hwlS heS)

theorem mergeDen_idem (s d : FSTree) (hs : s.wfB = true) (hd : d.wfB = true) :
    mergeDen s (mergeDen s d) = mergeDen s d :=
  mergeDen_idem_aux (sizeOf d) d le_rfl s hs hd

theorem prepare_of_nonempty (s : FSTree) (es : List (String × FSTree))
    (h : isEmptyDir (.dir es) = false) :
    prepareDestinationDirectory s (some (.dir es)) = mergeSel s (.dir es) := by
  show (if isEmptyDir (.dir es) = true then copyDirectoryContents s (.dir es)
    else (getAllFilePaths s []).foldl (selStep s) (.dir es)) = mergeSel s (.dir es)
  rw [if_neg (by simp [h])]
  rfl

theorem prepare_some_eq_mergeDen (s : FSTree) (es : List (String × FSTree))
    (hs : s.wfB = true) (hwf : (FSTree.dir es).wfB = true)
    (hne : isEmptyDir (.dir es) = false) :
    prepareDestinationDirectory s (some (.dir es)) = mergeDen s (.dir es) := by
  rw [prepare_of_nonempty s es hne]
  exact mergeSel_eq_mergeDen s (.dir es) hs hwf

/-! Theorems settling the claims. -/

/-- C1 (code bug): the non-overwrite invariant fails on the code.  With
destination `{a: file "old"}` (non-empty, so the selective branch runs) and
source `{a: {f: file "new"}}`, the walk enumerates `a` (exists: skipped)
and then `a/f`; `os.path.exists(dest/a/f)` is false because `dest/a` is a
regular file, so the code runs `cp -r src/a/f dest/a`, and `cp` overwrites
the existing regular file `dest/a`.  The pre-existing destination file `a`
(content "old") ends with content "new": a file originally present under
the destination is altered, contradicting the claim and the function's own
docstring ("without overwriting"). -/
theorem c1_non_overwrite_violated :
    (FSTree.dir [("a", FSTree.file "old")]).find? ["a"] = some (.file "old") ∧
    prepareDestinationDirectory (.dir [("a", .dir [("f", .file "new")])])
        (some (.dir [("a", .file "old")]))
      = .dir [("a", .file "new")] :=
  ⟨rfl, rfl⟩

/-- C2 (code bug): completeness fails on the code.  With source
`{d: {e: {g: file "G"}}}` and non-empty destination `{d: file "D"}`, the
file `d/e/g` is reachable under the source root, but after the merge no
node exists at `d/e/g` under the destination: the copy of `d/e` fails
(`cp` cannot overwrite the non-directory `dest/d` with a directory), the
missing directory `d/e` is never created (line 157 re-creates the
destination root instead), and the copy of `d/e/g` to the non-existent
`dest/d/e` fails; all failures are swallowed by `subprocess.run`. -/
theorem c2_completeness_violated :
    (FSTree.dir [("d", FSTree.dir [("e", FSTree.dir [("g", FSTree.file "G")])])]).find?
        ["d", "e", "g"] = some (.file "G") ∧
    (prepareDestinationDirectory
        (.dir [("d", .dir [("e", .dir [("g", .file "G")])])])
        (some (.dir [("d", .file "D")]))).find? ["d", "e", "g"] = none :=
  ⟨rfl, rfl⟩

/-- C3 (code bug): the selective merge does not create the missing
corresponding directory.  With source `{p: {q: {r: file "R"}}}` and
non-empty destination `{p: file "P"}`, the enumerated entry `p/q/r` has
corresponding directory `p/q`, which does not exist under the destination;
line 157 calls `createDir(absDestDirPath)` — the destination root — instead
of `createDir(absDirPath)`, so `p/q` is never created and the destination
is left completely unchanged. -/
theorem c3_directory_not_created :
    ["p", "q", "r"] ∈ getAllFilePaths
        (.dir [("p", .dir [("q", .dir [("r", FSTree.file "R")])])]) [] ∧
    (FSTree.dir [("p", FSTree.file "P")]).find? ["p", "q"] = none ∧
    prepareDestinationDirectory
        (.dir [("p", .dir [("q", .dir [("r", .file "R")])])])
        (some (.dir [("p", .file "P")]))
      = .dir [("p", .file "P")] ∧
    (prepareDestinationDirectory
        (.dir [("p", .dir [("q", .dir [("r", .file "R")])])])
        (some (.dir [("p", .file "P")]))).find? ["p", "q"] = none :=
  ⟨by decide, rfl, rfl, rfl⟩

/-- C4 counterexample: the claim that `memoized(f)(a=1, b=2)` and
`memoized(f)(b=2, a=1)` are treated as equal cache keys is false at this
concrete input.  `pickle.dumps` serializes dict items in insertion order,
so the two keyword orders pickle to different byte strings, hence
different keys, and the second call invokes `f` again instead of hitting
the cache. -/
theorem c4_kwarg_order_counterexample :
    mkKey [] [("a", .vint 1), ("b", .vint 2)]
      ≠ mkKey [] [("b", .vint 2), ("a", .vint 1)] ∧
    invokedOn (fun _ _ => .vint 0)
        (cacheAfter (fun _ _ => .vint 0) [] [] [("a", .vint 1), ("b", .vint 2)])
        [] [("b", .vint 2), ("a", .vint 1)] = true :=
  ⟨by decide, rfl⟩

/-- C4 (amended): `memoized(f)(1, 2)` and `memoized(f)(2, 1)` are distinct
keys (each call invokes `f`), and `memoized(f)(a=1, b=2)` and
`memoized(f)(b=2, a=1)` are ALSO distinct keys (each call invokes `f`),
because the key pickles keyword arguments in their insertion order; two
calls with equal argument values in the same positional and keyword order
produce the same key (the key is a function of the argument values alone,
not of object identity). -/
theorem c4_key_distinctness_amended :
    (∀ func : Args → Kwargs → Value,
      invokedOn func [] [.vint 1, .vint 2] [] = true ∧
      invokedOn func (cacheAfter func [] [.vint 1, .vint 2] [])
          [.vint 2, .vint 1] [] = true ∧
      invokedOn func [] [] [("a", .vint 1), ("b", .vint 2)] = true ∧
      invokedOn func (cacheAfter func [] [] [("a", .vint 1), ("b", .vint 2)])
          [] [("b", .vint 2), ("a", .vint 1)] = true) ∧
    (∀ (args args' : Args) (kwargs kwargs' : Kwargs),
      args = args' → kwargs = kwargs' → mkKey args kwargs = mkKey args' kwargs') :=
  ⟨fun _ => ⟨rfl, rfl, rfl, rfl⟩, fun _ _ _ _ ha hk => ha ▸ hk ▸ rfl⟩

/-- Witness for the amended C4 theorem at a concrete wrapped callable. -/
theorem c4_key_distinctness_amended_witness :
    invokedOn (fun _ _ => Value.vint 7)
        (cacheAfter (fun _ _ => Value.vint 7) [] [.vint 1, .vint 2] [])
        [.vint 2, .vint 1] [] = true ∧
    mkKey [.vint 3] [] = mkKey [.vint 3] [] :=
  ⟨(c4_key_distinctness_amended.1 (fun _ _ => Value.vint 7)).2.1,
   c4_key_distinctness_amended.2 [.vint 3] [.vint 3] [] [] rfl rfl⟩

/-- C5: memoization correctness.  For every wrapped callable, cache state
and argument set whose key is picklable and not yet cached, the first call
invokes the callable, returns its result and stores it; a subsequent call
with a structurally-equal argument set (the same positional sequence and
the same keyword mapping in the same insertion order) returns the cached
value, leaves the cache unchanged and does not invoke the callable — so an
internal call counter increments exactly once across repeated identical
calls and every such call returns the same value. -/
theorem c5_memoize_correct (func : Args → Kwargs → Value) (c : Cache)
    (args : Args) (kwargs : Kwargs) (key : List Nat × List Nat)
    (hk : mkKey args kwargs = some key) (hm : cacheLookup c key = none) :
    wrapper func c args kwargs
        = .ok (func args kwargs, (key, func args kwargs) :: c, true) ∧
    wrapper func ((key, func args kwargs) :: c) args kwargs
        = .ok (func args kwargs, (key, func args kwargs) :: c, false) := by
  constructor
  · unfold wrapper
    rw [hk]
    dsimp only
    rw [hm]
  · unfold wrapper
    rw [hk]
    dsimp only
    rw [show cacheLookup ((key, func args kwargs) :: c) key
          = some (func args kwargs) by simp [cacheLookup]]

/-- Witness for C5 at a concrete callable and argument set. -/
theorem c5_memoize_correct_witness :
    wrapper (fun _ _ => Value.vint 7) [] [.vint 1, .vint 2] []
        = .ok (.vint 7, [(([2, 2, 0, 1, 0, 2], [3, 0]), .vint 7)], true) ∧
    wrapper (fun _ _ => Value.vint 7)
        [(([2, 2, 0, 1, 0, 2], [3, 0]), .vint 7)] [.vint 1, .vint 2] []
        = .ok (.vint 7, [(([2, 2, 0, 1, 0, 2], [3, 0]), .vint 7)], false) :=
  c5_memoize_correct (fun _ _ => Value.vint 7) [] [.vint 1, .vint 2] []
    ([2, 2, 0, 1, 0, 2], [3, 0]) rfl rfl

/-- C7: bulk-copy shortcut.  Whenever the destination directory after
step-1 creation has zero top-level entries (it was absent, or existed and
was empty), the merge copies every top-level entry of the source
recursively into the destination, which afterwards equals the source tree
exactly — the same files and subdirectories with matching content.  The
emptiness test is the single `isEmptyDir(absDestDirPath)` on the
destination root; no per-subdirectory emptiness test occurs.  Top-level
source names are pairwise distinct, as `os.listdir` guarantees. -/
theorem c7_bulk_copy (ss : List (String × FSTree)) (dest : Option FSTree)
    (hd : dest.getD (.dir []) = .dir [])
    (hn : (ss.map Prod.fst).Nodup) :
    prepareDestinationDirectory (.dir ss) dest = .dir ss := by
  have h0 : prepareDestinationDirectory (.dir ss) dest
      = copyDirectoryContents (.dir ss) (.dir []) := by
    unfold prepareDestinationDirectory
    rw [hd]
    rfl
  rw [h0]
  unfold copyDirectoryContents listdir
  have := bulk_fold ss [] (fun _ _ => rfl) hn
  simpa using this

/-- Witness for C7 at a concrete source with files across subdirectories. -/
theorem c7_bulk_copy_witness :
    prepareDestinationDirectory
        (.dir [("x", .file "X"), ("s", .dir [("y", .file "Y")])])
        (some (.dir []))
      = .dir [("x", .file "X"), ("s", .dir [("y", .file "Y")])] :=
  c7_bulk_copy [("x", FSTree.file "X"), ("s", FSTree.dir [("y", FSTree.file "Y")])]
    (some (.dir [])) rfl (by decide)

/-- C8: copy-failure propagation.  `prepareDestinationDirectory` contains
no handler around its calls of the copy primitive, so for every source and
destination, running the merge with a copy primitive that fails with `e`
either surfaces exactly `.error e` to the caller (the failure of the first
attempted copy, not locally recovered), or performs no copy at all, in
which case the run coincides with the ordinary merge result. -/
theorem c8_copy_failure_propagates {ε : Type} (e : ε) (src : FSTree)
    (dest : Option FSTree) :
    prepareDestinationDirectoryE (failPrim e) src dest = .error e ∨
    prepareDestinationDirectoryE (failPrim e) src dest
      = .ok (prepareDestinationDirectory src dest) := by
  unfold prepareDestinationDirectoryE prepareDestinationDirectory
  by_cases h : isEmptyDir (dest.getD (.dir [])) = true
  · simp only [h, if_true]
    unfold copyDirectoryContents
    cases hl : listdir src with
    | nil => right; rfl
    | cons hd tl =>
      left
      rw [List.foldlM_cons]
      rfl
  · simp only [h, if_false]
    exact selFoldE_propagates e src (getAllFilePaths src []) _

/-- C9: directory-creation failure handling.  For every filesystem state,
working directory and path: when the underlying `os.makedirs` call fails,
`createDir` does not propagate the exception — it logs (not modelled) and
returns `None` with the filesystem unchanged; when the call succeeds it
returns the resolved absolute path; and creating an already-existing
directory is a no-op success (with `exist_ok=True`, the default), not an
error. -/
theorem c9_createDir (fs : FSTree) (cwd : List String) (p : PathArg) :
    (makedirs fs (getAbolutePath cwd p) true = none →
      createDir fs cwd p true = (none, fs)) ∧
    (∀ fs', makedirs fs (getAbolutePath cwd p) true = some fs' →
      createDir fs cwd p true = (some (getAbolutePath cwd p), fs')) ∧
    (∀ es, fs.find? (getAbolutePath cwd p) = some (.dir es) →
      createDir fs cwd p true = (some (getAbolutePath cwd p), fs)) := by
  refine ⟨fun h => ?_, fun fs' h => ?_, fun es h => ?_⟩
  · show (match makedirs fs (getAbolutePath cwd p) true with
      | some fs'' => (some (getAbolutePath cwd p), fs'')
      | none => (none, fs)) = (none, fs)
    rw [h]
  · show (match makedirs fs (getAbolutePath cwd p) true with
      | some fs'' => (some (getAbolutePath cwd p), fs'')
      | none => (none, fs)) = (some (getAbolutePath cwd p), fs')
    rw [h]
  · show (match makedirs fs (getAbolutePath cwd p) true with
      | some fs'' => (some (getAbolutePath cwd p), fs'')
      | none => (none, fs)) = (some (getAbolutePath cwd p), fs)
    rw [makedirs_existing_dir _ fs es h]

/-- Witness for C9: a failing creation (a file stands at the path), a
successful creation resolving a relative path against the working
directory, and a no-op success on an already-existing directory. -/
theorem c9_createDir_witness :
    createDir (.file "c") [] (true, ["d"]) true = (none, .file "c") ∧
    createDir (.dir []) ["home"] (false, ["d"]) true
      = (some ["home", "d"], .dir [("home", .dir [("d", .dir [])])]) ∧
    createDir (.dir [("d", .dir [("x", .file "1")])]) [] (true, ["d"]) true
      = (some ["d"], .dir [("d", .dir [("x", .file "1")])]) :=
  ⟨(c9_createDir (.file "c") [] (true, ["d"])).1 rfl,
   (c9_createDir (.dir []) ["home"] (false, ["d"])).2.1
     (.dir [("home", .dir [("d", .dir [])])]) rfl,
   (c9_createDir (.dir [("d", .dir [("x", .file "1")])]) [] (true, ["d"])).2.2
     [("x", .file "1")] rfl⟩

/-- C10: memoize error atomicity.  For every argument set whose key cannot
be pickled, the wrapper raises the pickling error before the callable is
ever invoked (the result does not depend on the callable, which is
universally quantified), and the cache is left exactly as it was. -/
theorem c10_pickle_atomicity (args : Args) (kwargs : Kwargs)
    (h : mkKey args kwargs = none)
    (func : Args → Kwargs → Value) (c : Cache) :
    wrapper func c args kwargs = .error c := by
  unfold wrapper
  rw [h]

/-- Witness for C10: a call with an unpicklable positional argument, a
non-empty cache, and a concrete callable. -/
theorem c10_pickle_atomicity_witness :
    wrapper (fun _ _ => Value.vint 0) [(([0, 1], [3, 0]), Value.vint 5)]
        [.vlambda] [] = .error [(([0, 1], [3, 0]), Value.vint 5)] :=
  c10_pickle_atomicity [.vlambda] [] rfl (fun _ _ => Value.vint 0)
    [(([0, 1], [3, 0]), Value.vint 5)]

/-- C6: idempotence of the merge.  For every source tree and destination
(absent, or an existing directory tree; both trees well-formed images of a
real filesystem, i.e. entry names unique within each directory), running
`prepareDestinationDirectory` a second time on the result of the first run
leaves the destination tree exactly as the first run left it — the same
files and the same contents. -/
theorem c6_merge_idempotent (src : FSTree) (dest : Option FSTree)
    (hs : src.wfB = true)
    (hd : (dest.getD (.dir [])).wfB = true)
    (hdir : (dest.getD (.dir [])).isDirB = true) :
    prepareDestinationDirectory src (some (prepareDestinationDirectory src dest))
      = prepareDestinationDirectory src dest := by
  obtain ⟨ds, hds⟩ : ∃ ds, dest.getD (.dir []) = .dir ds := by
    cases hdd : dest.getD (.dir []) with
    | file c => rw [hdd] at hdir; simp [FSTree.isDirB] at hdir
    | dir ds => exact ⟨ds, rfl⟩
  rw [hds] at hd
  have hP : prepareDestinationDirectory src dest
      = if isEmptyDir (.dir ds) = true then copyDirectoryContents src (.dir ds)
        else mergeSel src (.dir ds) := by
    unfold prepareDestinationDirectory
    rw [hds]
    rfl
  cases ds with
  | nil =>
    rw [hP, if_pos (show isEmptyDir (.dir []) = true from rfl)]
    cases src with
    | file c =>
      rw [show copyDirectoryContents (.file c) (.dir []) = .dir [] from rfl]
      rfl
    | dir ss =>
      have hnd : nodupKeys ss = true := by
        rw [wfB_dir, Bool.and_eq_true] at hs
        exact hs.1
      have hbulk : copyDirectoryContents (.dir ss) (.dir []) = .dir ss := by
        unfold copyDirectoryContents listdir
        simpa using bulk_fold ss [] (fun _ _ => rfl) ((nodupKeys_nodup ss).mp hnd)
      rw [hbulk]
      cases hss : ss with
      | nil =>
        subst hss
        rfl
      | cons e rest =>
        subst hss
        rw [prepare_of_nonempty (.dir (e :: rest)) (e :: rest) rfl]
        rw [mergeSel_eq_mergeDen _ _ hs hs, mergeDen_self _ hs]
  | cons e0 rest0 =>
    rw [hP, if_neg (by
      rw [show isEmptyDir (FSTree.dir (e0 :: rest0)) = false from rfl]
      simp)]
    rw [mergeSel_eq_mergeDen src _ hs hd]
    cases src with
    | file c =>
      rw [mergeDen_file_src]
      rw [prepare_of_nonempty (.file c) (e0 :: rest0) rfl]
      rfl
    | dir ss =>
      have hEwf : (mergeDen (.dir ss) (.dir (e0 :: rest0))).wfB = true :=
        mergeDen_wf _ _ hs hd
      have hform : mergeDen (.dir ss) (.dir (e0 :: rest0))
          = .dir (mergeList ss (e0 :: rest0)
            ++ (ss.filter fun e => e.2.isDirB).filter
                (fun e => (lookupEntry (e0 :: rest0) e.1).isNone)
            ++ (ss.filter fun e => !e.2.isDirB).filter
                (fun e => (lookupEntry (e0 :: rest0) e.1).isNone)) := rfl
    -- the merged listing starts with the destination's first entry
      have hEne : isEmptyDir (.dir (mergeList ss (e0 :: rest0)
          ++ (ss.filter fun e => e.2.isDirB).filter
              (fun e => (lookupEntry (e0 :: rest0) e.1).isNone)
          ++ (ss.filter fun e => !e.2.isDirB).filter
              (fun e => (lookupEntry (e0 :: rest0) e.1).isNone))) = false := by
        obtain ⟨n0, dt0⟩ := e0
        rfl
      rw [hform]
      rw [prepare_some_eq_mergeDen (.dir ss) _ hs (hform ▸ hEwf) hEne]
      rw [← hform]
      exact mergeDen_idem _ _ hs hd

/-- Witness for C6 at a concrete source and non-empty destination. -/
theorem c6_merge_idempotent_witness :
    prepareDestinationDirectory (.dir [("a", .dir [("f", .file "1")])])
      (some (prepareDestinationDirectory (.dir [("a", .dir [("f", .file "1")])])
        (some (.dir [("z", .file "Z")]))))
      = prepareDestinationDirectory (.dir [("a", .dir [("f", .file "1")])])
        (some (.dir [("z", .file "Z")])) :=
  c6_merge_idempotent (.dir [("a", .dir [("f", .file "1")])])
    (some (.dir [("z", .file "Z")])) rfl rfl rfl

end CommonUtil
